import Mathlib

/-!
Verification development for the Discord channel-summarizer bot
(`src/bot.py`, the OpenAI variant, and `src/unnamed/part_000`, the
Deepseek variant).

Texts are modelled as `List Char` (one entry per Unicode code point,
matching Python's `len`/indexing on `str`).  The Python string
operations used by the bot (`lower`, `strip`, `lstrip`, `split`,
`replace`, substring containment) are reimplemented below with Python's
semantics (ASCII case folding and the ASCII whitespace class; the bot's
own data is ASCII apart from a few emoji, which no operation here case
folds or strips).  The handful of regular expressions used by
`parse_user_request` are specialised into executable matchers whose
backtracking order mirrors Python's `re` module; each matcher is
documented at its definition.
-/

/-- Texts are lists of characters, as in Python's `str`. -/
abbrev Str := List Char

/-- Python's `str.isspace`/`\s` class for ASCII: the whitespace
characters recognised by `strip()` and `\s` on the bot's data. -/
def pyWs (c : Char) : Bool :=
  c == ' ' || c == '\t' || c == '\n' || c == '\r' || c == '\x0b' || c == '\x0c'

/-- Python `str.lower()` (ASCII folding, which is all the bot's data uses). -/
def pyLower (s : Str) : Str := s.map Char.toLower

/-- Python `str.strip()`: drop whitespace from both ends. -/
def pyStrip (s : Str) : Str :=
  ((s.dropWhile pyWs).reverse.dropWhile pyWs).reverse

/-- Python `str.lstrip('#')`: drop leading `#` characters. -/
def lstripHash (s : Str) : Str := s.dropWhile (· == '#')

/-- Python substring test `pat in s`. -/
def occursB (pat : Str) : Str → Bool
  | [] => pat.isEmpty
  | c :: t => pat.isPrefixOf (c :: t) || occursB pat t

/-- Fuel-driven core of Python `s.split(sep)`: split on the
left-to-right non-overlapping occurrences of `sep`.  The fuel argument
only serves structural termination; `pySplitOn` always supplies enough
for it never to run out, so the out-of-fuel arm is unreachable. -/
def pySplitOnF (sep : Str) : Nat → Str → List Str
  | _, [] => [[]]
  | 0, s => [s]
  | fuel + 1, c :: t =>
    if sep.isPrefixOf (c :: t) then
      [] :: pySplitOnF sep fuel (t.drop (sep.length - 1))
    else
      match pySplitOnF sep fuel t with
      | [] => [[c]]
      | x :: xs => (c :: x) :: xs

/-- Python `s.split(sep)` for nonempty `sep`. -/
def pySplitOn (sep s : Str) : List Str := pySplitOnF sep s.length s

/-- The fuel of `pySplitOnF` is irrelevant once it covers the input. -/
theorem pySplitOnF_fuel (sep : Str) :
    ∀ (f₁ : Nat) (s : Str) (f₂ : Nat), s.length ≤ f₁ → s.length ≤ f₂ →
      pySplitOnF sep f₁ s = pySplitOnF sep f₂ s := by
  intro f₁
  induction f₁ with
  | zero =>
    intro s f₂ h₁ _
    have hs : s = [] := List.length_eq_zero.mp (Nat.le_antisymm h₁ (Nat.zero_le _))
    subst hs
    cases f₂ <;> rfl
  | succ f ih =>
    intro s f₂ h₁ h₂
    cases s with
    | nil => cases f₂ <;> rfl
    | cons c t =>
      cases f₂ with
      | zero => simp at h₂
      | succ f' =>
        simp only [pySplitOnF]
        have hd : (t.drop (sep.length - 1)).length ≤ t.length := by
          simp [List.length_drop]
        have ht : t.length ≤ f := by simpa using h₁
        have ht' : t.length ≤ f' := by simpa using h₂
        rw [ih (t.drop (sep.length - 1)) f' (le_trans hd ht) (le_trans hd ht'),
          ih t f' ht ht']

/-- The recursion `pySplitOn` actually performs, stated fuel-free. -/
theorem pySplitOn_cons (sep : Str) (c : Char) (t : Str) :
    pySplitOn sep (c :: t) =
      if sep.isPrefixOf (c :: t) then
        [] :: pySplitOn sep (t.drop (sep.length - 1))
      else
        match pySplitOn sep t with
        | [] => [[c]]
        | x :: xs => (c :: x) :: xs := by
  show pySplitOnF sep (t.length + 1) (c :: t) = _
  simp only [pySplitOnF]
  rw [pySplitOnF_fuel sep t.length (t.drop (sep.length - 1)) (t.drop (sep.length - 1)).length
      (by simp [List.length_drop]) le_rfl,
    pySplitOnF_fuel sep t.length t t.length le_rfl le_rfl]
  rfl

/-- Python `s.split(sep)[-1]`: the text after the last (scanned)
occurrence of `sep`; `s` itself when `sep` does not occur. -/
def pySplitLast (sep s : Str) : Str := (pySplitOn sep s).getLastD []

/-- Python `s.split()` (no argument): split on whitespace runs,
discarding empty pieces; `cw` accumulates the current word reversed. -/
def pySplitWsGo : Str → Str → List Str
  | cw, [] => if cw.isEmpty then [] else [cw.reverse]
  | cw, c :: t =>
    if pyWs c then
      if cw.isEmpty then pySplitWsGo [] t else cw.reverse :: pySplitWsGo [] t
    else pySplitWsGo (c :: cw) t

/-- Python `s.split()` (no argument). -/
def pySplitWs (s : Str) : List Str := pySplitWsGo [] s

/-- Fuel-driven core of Python `s.replace(pat, rep)`: replace every
left-to-right non-overlapping occurrence.  The fuel argument only
serves structural termination and never runs out when called through
`replaceAll`. -/
def replaceAllF (pat rep : Str) : Nat → Str → Str
  | _, [] => []
  | 0, s => s
  | fuel + 1, c :: t =>
    if pat.isPrefixOf (c :: t) then
      rep ++ replaceAllF pat rep fuel (t.drop (pat.length - 1))
    else
      c :: replaceAllF pat rep fuel t

/-- Python `s.replace(pat, rep)` for nonempty `pat`. -/
def replaceAll (pat rep s : Str) : Str := replaceAllF pat rep s.length s

/-- The fuel of `replaceAllF` is irrelevant once it covers the input. -/
theorem replaceAllF_fuel (pat rep : Str) :
    ∀ (f₁ : Nat) (s : Str) (f₂ : Nat), s.length ≤ f₁ → s.length ≤ f₂ →
      replaceAllF pat rep f₁ s = replaceAllF pat rep f₂ s := by
  intro f₁
  induction f₁ with
  | zero =>
    intro s f₂ h₁ _
    have hs : s = [] := List.length_eq_zero.mp (Nat.le_antisymm h₁ (Nat.zero_le _))
    subst hs
    cases f₂ <;> rfl
  | succ f ih =>
    intro s f₂ h₁ h₂
    cases s with
    | nil => cases f₂ <;> rfl
    | cons c t =>
      cases f₂ with
      | zero => simp at h₂
      | succ f' =>
        simp only [replaceAllF]
        have hd : (t.drop (pat.length - 1)).length ≤ t.length := by
          simp [List.length_drop]
        have ht : t.length ≤ f := by simpa using h₁
        have ht' : t.length ≤ f' := by simpa using h₂
        rw [ih (t.drop (pat.length - 1)) f' (le_trans hd ht) (le_trans hd ht'),
          ih t f' ht ht']

/-- The recursion `replaceAll` actually performs, stated fuel-free. -/
theorem replaceAll_cons (pat rep : Str) (c : Char) (t : Str) :
    replaceAll pat rep (c :: t) =
      if pat.isPrefixOf (c :: t) then
        rep ++ replaceAll pat rep (t.drop (pat.length - 1))
      else
        c :: replaceAll pat rep t := by
  show replaceAllF pat rep (t.length + 1) (c :: t) = _
  simp only [replaceAllF]
  rw [replaceAllF_fuel pat rep t.length (t.drop (pat.length - 1))
      (t.drop (pat.length - 1)).length (by simp [List.length_drop]) le_rfl,
    replaceAllF_fuel pat rep t.length t t.length le_rfl le_rfl]
  rfl

/-- Python `int(digits)` on a digit string. -/
def natOfDigits (ds : Str) : Nat :=
  ds.foldl (fun a c => a * 10 + (c.toNat - 48)) 0

/-- Python truthiness of an optional integer (`None` and `0` are falsy). -/
def pyTruthy : Option Nat → Bool
  | none => false
  | some n => n != 0

-- ======================================================================
-- Configuration constants shared by both variants
-- ======================================================================

def MAX_MESSAGES : Nat := 500
def DEFAULT_MESSAGES : Nat := 50

-- ======================================================================
-- Regex matchers used by parse_user_request
-- ======================================================================

/-- A `\w` or `-` character, the class `[\w-]` of the channel regex
(ASCII word characters; the bot's channel names are ASCII). -/
def isWordChar (c : Char) : Bool := c.isAlphanum || c == '_' || c == '-'

/-- `re.search(r'#([\w-]+)', s)`, returning group 1: the first `#`
that is immediately followed by at least one word character, and the
maximal word-character run after it. -/
def hashChannelSearch : Str → Option Str
  | [] => none
  | c :: t =>
    if c == '#' then
      match t.takeWhile isWordChar with
      | [] => hashChannelSearch t
      | w => some w
    else hashChannelSearch t

/-- One attempt of `re.search(r'(\d+)\s*h(?:ours?)?', s)` anchored at the
head of `s`: Python's greedy `\d+` takes the maximal digit run (giving
digits back cannot help, since the next required character `h` is not a
digit), `\s*` then must consume the whole whitespace run before the
mandatory `h`, and the optional `ours?` is matched greedily.  Returns
`(group0, int(group1))`. -/
def hoursMatchAt (s : Str) : Option (Str × Nat) :=
  match s.takeWhile Char.isDigit, (s.dropWhile Char.isDigit).dropWhile pyWs with
  | d :: ds, 'h' :: t =>
    some ((d :: ds) ++ (s.dropWhile Char.isDigit).takeWhile pyWs ++ 'h' ::
      (if ("ours".toList).isPrefixOf t then "ours".toList
       else if ("our".toList).isPrefixOf t then "our".toList
       else []), natOfDigits (d :: ds))
  | _, _ => none

/-- `re.search(r'(\d+)\s*h(?:ours?)?', s)`: leftmost match. -/
def hoursSearch : Str → Option (Str × Nat)
  | [] => none
  | c :: t =>
    match hoursMatchAt (c :: t) with
    | some r => some r
    | none => hoursSearch t

/-- `re.search(r'(\d+)\s*(messages?|msgs?)?', s)` (the Deepseek
variant's count regex), returning `int(group1)`.  The optional suffix
never constrains the match, so group 1 is the first maximal digit run. -/
def dsCountSearch : Str → Option Nat
  | [] => none
  | c :: t =>
    if c.isDigit then some (natOfDigits ((c :: t).takeWhile Char.isDigit))
    else dsCountSearch t

-- The OpenAI variant's count regex `(\d+)\s*(messages?|msgs?)?(?!\s*h)`
-- needs real backtracking: `\d+` gives digits back until the negative
-- lookahead is satisfied.

/-- The regex `\s*h` used inside the negative lookahead: it matches at
the head of `t` iff the first non-whitespace character of `t` is `h`. -/
def lookH (t : Str) : Bool :=
  match t.dropWhile pyWs with
  | 'h' :: _ => true
  | _ => false

/-- The alternatives of `(messages?|msgs?)?` in the order Python tries
them (each alternation branch greedy on its final `s?`, and the whole
group preferring presence over absence; the empty alternative last). -/
def unitAlts : List Str :=
  ["messages".toList, "message".toList, "msgs".toList, "msg".toList, []]

/-- Whether `\s*(messages?|msgs?)?(?!\s*h)` can succeed at the head of
`rest`: some number of whitespace characters, then one alternative,
then the lookahead must fail. -/
def v1SuffixOk (rest : Str) : Bool :=
  (List.range ((rest.takeWhile pyWs).length + 1)).any fun w =>
    unitAlts.any fun u =>
      let t := rest.drop w
      u.isPrefixOf t && !lookH (t.drop u.length)

/-- One attempt of the OpenAI count regex anchored at the head of `s`:
the greedy `\d+` tries the maximal digit run first and backtracks one
digit at a time until the rest of the pattern (with its negative
lookahead) succeeds.  Returns `int(group1)` of the first success. -/
def v1CountAt (s : Str) : Option Nat :=
  match s.takeWhile Char.isDigit with
  | [] => none
  | run =>
    (List.range run.length).findSome? fun k =>
      let d := run.length - k
      if v1SuffixOk (s.drop d) then some (natOfDigits (s.take d)) else none

/-- `re.search(r'(\d+)\s*(messages?|msgs?)?(?!\s*h)', s)`: leftmost
position at which the pattern matches. -/
def v1CountSearch : Str → Option Nat
  | [] => none
  | c :: t =>
    match v1CountAt (c :: t) with
    | some r => some r
    | none => v1CountSearch t

-- ======================================================================
-- parse_user_request — Deepseek variant (src/unnamed/part_000)
-- ======================================================================

/-- The structured request built by the Deepseek variant's
`parse_user_request`. -/
structure ParsedRequest where
  channel : Option Str
  limit : Option Nat
  hours : Option Nat
  deep : Bool
deriving DecidableEq, Repr

def deep_triggers : List Str :=
  ["deep", "detailed", "detail", "drama", "who said", "breakdown", "full", "everything"].map
    String.toList

def channelKeywords : List Str :=
  ["summarize", "summary", "recap", "what happened in", "catch me up on", "in"].map
    String.toList

def skip_words : List Str :=
  ["deep", "detailed", "detail", "drama", "full", "the", "a"].map String.toList

/-- `content.lower().strip()`, the shared normalisation step. -/
def normContent (s : Str) : Str := pyStrip (pyLower s)

/-- The Deepseek fallback channel extraction (no `#` in the text):
first keyword of the ordered list that occurs, text after its last
occurrence (Python `split(keyword)[-1]`), whitespace-tokenised, first
token not in the skip list, leading `#` stripped. -/
def fallbackChannel (cl : Str) : Option Str :=
  match channelKeywords.find? (fun k => occursB k cl) with
  | none => none
  | some k =>
    match (pySplitWs (pyStrip (pySplitLast k cl))).find?
        (fun w => !(skip_words.contains w)) with
    | some w => some (lstripHash w)
    | none => none

/-- Hours extraction plus the text used afterwards for count matching:
on a regex match the whole matched span `group(0)` is replaced by a
single space everywhere in the text (Python `str.replace`). -/
def hoursAndCountText (cl : Str) : Option Nat × Str :=
  match hoursSearch cl with
  | some (g0, hv) => (some hv, replaceAll g0 [' '] cl)
  | none => (none, cl)

/-- The canonical time phrases, applied only while `hours` is falsy. -/
def applyTimePhrases (cl : Str) (hours0 : Option Nat) : Option Nat :=
  if occursB ("last hour".toList) cl && !pyTruthy hours0 then some 1
  else if (occursB ("last day".toList) cl || occursB ("past day".toList) cl
      || occursB ("24 hours".toList) cl) && !pyTruthy hours0 then some 24
  else if (occursB ("last week".toList) cl || occursB ("past week".toList) cl)
      && !pyTruthy hours0 then some 168
  else hours0

/-- The acceptance rule the Deepseek variant applies to a matched
count: kept only when at least 5, capped at `MAX_MESSAGES`. -/
def limitFromCount : Option Nat → Option Nat
  | some c => if 5 ≤ c then some (min c MAX_MESSAGES) else none
  | none => none

/-- `parse_user_request` of the Deepseek variant
(src/unnamed/part_000, lines 183-243). -/
def parse_user_request (content : Str) : ParsedRequest :=
  let cl := normContent content
  let deep := deep_triggers.any fun w => occursB w cl
  let channel :=
    match hashChannelSearch cl with
    | some nm => some nm
    | none => fallbackChannel cl
  let hc := hoursAndCountText cl
  let hours := applyTimePhrases cl hc.1
  let limit := limitFromCount (dsCountSearch hc.2)
  ⟨channel, limit, hours, deep⟩

/-- The text the Deepseek variant's count matching runs on. -/
def countTextOf (s : Str) : Str := (hoursAndCountText (normContent s)).2

-- ======================================================================
-- parse_user_request — OpenAI variant (src/bot.py)
-- ======================================================================

/-- The structured request built by the OpenAI variant's
`parse_user_request` (no deep-mode flag). -/
structure ParsedRequestV1 where
  channel : Option Str
  limit : Option Nat
  hours : Option Nat
deriving DecidableEq, Repr

/-- The OpenAI fallback channel extraction: same keyword scan but the
first token after the keyword is taken unconditionally (no skip list). -/
def fallbackChannelV1 (cl : Str) : Option Str :=
  match channelKeywords.find? (fun k => occursB k cl) with
  | none => none
  | some k =>
    match pySplitWs (pyStrip (pySplitLast k cl)) with
    | [] => none
    | w :: _ => some (lstripHash w)

/-- `parse_user_request` of the OpenAI variant (src/bot.py, lines
196-253).  The count regex carries a negative lookahead instead of the
hours-removal step, and the time phrases override the regex hours
unconditionally. -/
def parse_user_request_v1 (content : Str) : ParsedRequestV1 :=
  let cl := normContent content
  let channel :=
    match hashChannelSearch cl with
    | some nm => some nm
    | none => fallbackChannelV1 cl
  let limit :=
    match v1CountSearch cl with
    | some c => some (min c MAX_MESSAGES)
    | none => none
  let hours0 :=
    match hoursSearch cl with
    | some (_, hv) => some hv
    | none => none
  let hours :=
    if occursB ("last hour".toList) cl then some 1
    else if occursB ("last day".toList) cl || occursB ("past day".toList) cl
        || occursB ("24 hours".toList) cl then some 24
    else if occursB ("last week".toList) cl || occursB ("past week".toList) cl then some 168
    else hours0
  ⟨channel, limit, hours⟩

-- ======================================================================
-- find_channel_in_guilds (identical in both variants)
-- ======================================================================

/-- A text channel as seen through the platform collaborator: its name
and, for each user id, whether `permissions_for(member).read_messages`
holds for that user. -/
structure GChannel where
  name : Str
  canRead : Nat → Bool

/-- A guild (community): the ids `get_member` resolves, and its text
channels in iteration order. -/
structure Guild where
  memberIds : List Nat
  textChannels : List GChannel

/-- `guild.get_member(user_id) is not None`. -/
def Guild.hasMember (g : Guild) (uid : Nat) : Bool := g.memberIds.contains uid

/-- The normalisation applied to the requested name:
`channel_name.strip().lstrip('#').lower()`. -/
def normChannelName (s : Str) : Str := pyLower (lstripHash (pyStrip s))

/-- The inner loop of `find_channel_in_guilds`: first channel whose
lowercased name equals the target and which the member can read; a
name match without permission just continues the scan. -/
def findChannelInGuild (uid : Nat) (target : Str) : List GChannel → Option GChannel
  | [] => none
  | ch :: rest =>
    if pyLower ch.name == target && ch.canRead uid then some ch
    else findChannelInGuild uid target rest

/-- `find_channel_in_guilds(bot, channel_name, user_id)` (src/bot.py
lines 55-76, src/unnamed/part_000 lines 55-69): skip guilds the user is
not a member of, return the first readable name match, else `None`. -/
def find_channel_in_guilds (guilds : List Guild) (channelName : Str) (uid : Nat) :
    Option GChannel :=
  go guilds
where
  go : List Guild → Option GChannel
    | [] => none
    | g :: gs =>
      if g.hasMember uid then
        match findChannelInGuild uid (normChannelName channelName) g.textChannels with
        | some ch => some ch
        | none => go gs
      else go gs

-- ======================================================================
-- fetch_messages (Deepseek variant, src/unnamed/part_000 lines 72-101)
-- ======================================================================

/-- A message as produced by `channel.history`: whether its author is a
bot account, plus the fields the summariser keeps. -/
structure HistMsg where
  isBot : Bool
  author : Str
  content : Str
  timestamp : Str
deriving DecidableEq, Repr

/-- The dictionary `fetch_messages` builds per kept message. -/
structure MsgDict where
  author : Str
  content : Str
  timestamp : Str
deriving DecidableEq, Repr

/-- The per-message dictionary construction. -/
def renderMsg (m : HistMsg) : MsgDict := ⟨m.author, m.content, m.timestamp⟩

/-- The fetch-limit rule: an explicit (truthy) `limit` is capped at
`MAX_MESSAGES`; otherwise a truthy `hours` window fetches up to
`MAX_MESSAGES`; otherwise `DEFAULT_MESSAGES`. -/
def fetchLimit (limit hours : Option Nat) : Nat :=
  if pyTruthy limit then min (limit.getD 0) MAX_MESSAGES
  else if pyTruthy hours then MAX_MESSAGES
  else DEFAULT_MESSAGES

/-- `fetch_messages(channel, limit, hours)`.  `hist` stands for the
message sequence the platform's `channel.history` yields for the given
time bound `after`; the call stops after `fetch_limit` messages, and
messages whose author is a bot are skipped. -/
def fetch_messages (hist : List HistMsg) (limit hours : Option Nat) : List MsgDict :=
  ((hist.take (fetchLimit limit hours)).filter (fun m => !m.isBot)).map renderMsg

-- ======================================================================
-- summarize_with_deepseek length handling (part_000 lines 171-177)
-- ======================================================================

/-- The fixed truncation marker appended to over-long summaries. -/
def truncMarker : Str := "\n\n... *(summary truncated due to length)*".toList

/-- The post-processing the success path of `summarize_with_deepseek`
applies to the model's text before returning it. -/
def postprocessSummary (raw : Str) : Str :=
  if raw.length > 4000 then raw.take 3950 ++ truncMarker else raw

-- ======================================================================
-- Decimal rendering (Python str(n) inside f-strings)
-- ======================================================================

/-- The character of a single decimal digit. -/
def digitChar (d : Nat) : Char := Char.ofNat (48 + d)

/-- Accumulator loop of decimal rendering; the fuel (first argument)
only serves structural termination and suffices whenever it is at
least the rendered number. -/
def natReprAux : Nat → Nat → Str → Str
  | 0, n, acc => digitChar n :: acc
  | fuel + 1, n, acc =>
    if n < 10 then digitChar n :: acc
    else natReprAux fuel (n / 10) (digitChar (n % 10) :: acc)

/-- Python `str(n)` for a natural number. -/
def natRepr (n : Nat) : Str := natReprAux n n []

-- ======================================================================
-- The chunker of on_message (part_000 lines 384-397)
-- ======================================================================

/-- The blank-line paragraph separator. -/
def sep2 : Str := ['\n', '\n']

/-- `MAX_EMBED_LENGTH` of on_message. -/
def MAX_EMBED_LENGTH : Nat := 4000

/-- The greedy accumulation loop of the splitter: a paragraph is added
to the running chunk only while `len(current) + len(para) + 2` stays
strictly under `MAX_EMBED_LENGTH`; otherwise the running chunk (if any)
is closed with `strip()` and the paragraph starts a new chunk.  The
last running chunk is closed at the end. -/
def chunkGo : List Str → Str → List Str → List Str
  | [], cur, acc => if cur.isEmpty then acc else acc ++ [pyStrip cur]
  | p :: ps, cur, acc =>
    if cur.length + p.length + 2 < MAX_EMBED_LENGTH then
      chunkGo ps (cur ++ p ++ sep2) acc
    else if cur.isEmpty then
      chunkGo ps (p ++ sep2) acc
    else
      chunkGo ps (p ++ sep2) (acc ++ [pyStrip cur])

/-- The whole splitter: split on blank lines, then accumulate. -/
def buildChunks (summary : Str) : List Str :=
  chunkGo (pySplitOn sep2 summary) [] []

-- ======================================================================
-- Embed construction of on_message (part_000 lines 363-419)
-- ======================================================================

/-- A rendered card: title, body, the (name, value) field annotations,
and the footer text. -/
structure Embed where
  title : Str
  description : Str
  fields : List (Str × Str)
  footer : Str
deriving DecidableEq, Repr

/-- The "Time Range" annotation. -/
def timeRangeField (h : Nat) : Str × Str :=
  ("Time Range".toList, "Last ".toList ++ natRepr h ++ " hour(s)".toList)

/-- The "Message Limit" annotation. -/
def msgLimitField (l : Nat) : Str × Str :=
  ("Message Limit".toList, natRepr l)

/-- Footer of a non-final continuation embed: `Part k/n`. -/
def partFooter (k n : Nat) : Str :=
  "Part ".toList ++ natRepr k ++ ['/'] ++ natRepr n

/-- The extra footer text only the last of several embeds carries:
`· {m} messages · {label}` with bullet separators. -/
def countFooterSuffix (m : Nat) (lbl : Str) : Str :=
  " • ".toList ++ natRepr m ++ " messages • ".toList ++ lbl

/-- The continuation embeds (`for i, chunk in enumerate(chunks[1:],
start=2)`): title gains " (continued)", no fields, and only the chunk
with index `n` carries the message-count footer suffix. -/
def contEmbeds (title lbl : Str) (n m : Nat) : Nat → List Str → List Embed
  | _, [] => []
  | k, c :: cs =>
    ⟨title ++ " (continued)".toList, c, [],
      partFooter k n ++ (if k == n then countFooterSuffix m lbl else [])⟩ ::
    contEmbeds title lbl n m (k + 1) cs

/-- The multi-embed branch of on_message: the first chunk keeps the
title, gets the "Time Range" field only when `parsed['hours']` is
truthy (no "Message Limit" field exists on this path), and the footer
`Part 1/n`; the remaining chunks are continuation embeds. -/
def renderMulti (title lbl : Str) (hours : Option Nat) (chunks : List Str) (m : Nat) :
    List Embed :=
  match chunks with
  | [] => []
  | c0 :: rest =>
    ⟨title, c0,
      (if pyTruthy hours then [timeRangeField (hours.getD 0)] else []),
      "Part 1/".toList ++ natRepr (rest.length + 1)⟩ ::
    contEmbeds title lbl (rest.length + 1) m 2 rest

/-- The single-embed branch: both annotations (each under Python
truthiness of its field) and the server footer. -/
def renderSingle (title serverName : Str) (hours limit : Option Nat) (summary : Str)
    (m : Nat) (lbl : Str) : Embed :=
  ⟨title, summary,
    (if pyTruthy hours then [timeRangeField (hours.getD 0)] else []) ++
      (if pyTruthy limit then [msgLimitField (limit.getD 0)] else []),
    "Server: ".toList ++ serverName ++ " • ".toList ++ natRepr m ++
      " messages • ".toList ++ lbl⟩

/-- The embed-delivery step of on_message: one embed when the summary
fits in `MAX_EMBED_LENGTH`, otherwise the chunked sequence. -/
def deliverEmbeds (title serverName lbl : Str) (hours limit : Option Nat)
    (summary : Str) (m : Nat) : List Embed :=
  if summary.length ≤ MAX_EMBED_LENGTH then
    [renderSingle title serverName hours limit summary m lbl]
  else
    renderMulti title lbl hours (buildChunks summary) m

-- ======================================================================
-- The post-fetch pipeline segment of on_message (part_000 lines 336-354)
-- ======================================================================

/-- Outcome of the pipeline segment between fetch and delivery. -/
inductive PipelineOutcome where
  | emptyResult (notice : Str)
  | upstreamError (msg : Str)
  | delivered (summary : Str)
deriving DecidableEq, Repr

/-- The informational message of the empty-fetch branch. -/
def emptyNotice (channelName : Str) (hours : Option Nat) : Str :=
  "📭 No messages found in **#".toList ++ channelName ++ "**".toList ++
    (if pyTruthy hours then
      " from the last ".toList ++ natRepr (hours.getD 0) ++ " hours.".toList
    else ".".toList)

/-- The pipeline segment after fetch, instrumented with the number of
calls made to the summarisation collaborator: an empty fetch result
short-circuits to the informational notice before the collaborator is
invoked; otherwise the collaborator runs once and an error-prefixed
reply is surfaced instead of delivered. -/
def runAfterFetch (summarizer : List MsgDict → Str) (channelName : Str)
    (hours : Option Nat) (msgs : List MsgDict) : PipelineOutcome × Nat :=
  if msgs.isEmpty then
    (.emptyResult (emptyNotice channelName hours), 0)
  else
    let summary := summarizer msgs
    if summary.take 1 == ['❌'] then (.upstreamError summary, 1)
    else (.delivered summary, 1)

-- ======================================================================
-- C1: messageLimit range discipline
-- ======================================================================

/-- The range discipline claimed for the parsed message limit. -/
def limitInRange (p : ParsedRequest) : Prop :=
  p.limit = none ∨ ∃ n, p.limit = some n ∧ 5 ≤ n ∧ n ≤ 500

/-- C1: the Deepseek variant's `parse_user_request` keeps `limit`
either absent or within `[5, 500]` and parses `"24h"` as a pure time
window, but the OpenAI variant (src/bot.py) returns `limit = 2` for
`"24h"`: its count regex backtracks the greedy `\d+` one digit to
satisfy the negative lookahead, the very bug the Deepseek variant's
comment documents and fixes. -/
theorem C1_message_limit_bug :
    (parse_user_request_v1 ("24h".toList)).limit = some 2 ∧
    (parse_user_request ("24h".toList)).limit = none ∧
    (parse_user_request ("24h".toList)).hours = some 24 ∧
    ∀ s : Str, limitInRange (parse_user_request s) := by
  refine ⟨by decide, by decide, by decide, fun s => ?_⟩
  have h : (parse_user_request s).limit = limitFromCount (dsCountSearch (countTextOf s)) := rfl
  unfold limitInRange
  rw [h]
  cases hc : dsCountSearch (countTextOf s) with
  | none => exact Or.inl rfl
  | some c =>
    by_cases h5 : 5 ≤ c
    · refine Or.inr ⟨min c MAX_MESSAGES, by simp [limitFromCount, h5], ?_, ?_⟩
      · exact le_min h5 (by decide)
      · exact min_le_right c MAX_MESSAGES
    · exact Or.inl (by simp [limitFromCount, h5])

-- ======================================================================
-- C9: summary length bound and the single-embed branch
-- ======================================================================

/-- C9 counterexample: a 4000-character model reply is returned
untruncated, so the returned summary can exceed the claimed 3991-char
bound. -/
theorem C9_untruncated_4000_cex :
    postprocessSummary (List.replicate 4000 'x') = List.replicate 4000 'x' ∧
    (postprocessSummary (List.replicate 4000 'x')).length = 4000 ∧
    ¬ (postprocessSummary (List.replicate 4000 'x')).length ≤ 3991 := by
  have h : postprocessSummary (List.replicate 4000 'x') = List.replicate 4000 'x' := by
    unfold postprocessSummary
    rw [if_neg (by rw [List.length_replicate]; omega)]
  refine ⟨h, ?_, ?_⟩
  · rw [h, List.length_replicate]
  · rw [h, List.length_replicate]
    omega

/-- C9 amended: every summary returned by the success path is at most
4000 characters (an over-long reply is truncated to exactly
3950 + 41 = 3991), which is within `MAX_EMBED_LENGTH`, so delivery
always takes the single-embed branch. -/
theorem C9_summary_fits_single_embed :
    ∀ raw : Str,
      (postprocessSummary raw).length ≤ MAX_EMBED_LENGTH ∧
      (raw.length > 4000 → (postprocessSummary raw).length = 3991) ∧
      ∀ (title serverName lbl : Str) (hours limit : Option Nat) (m : Nat),
        deliverEmbeds title serverName lbl hours limit (postprocessSummary raw) m =
          [renderSingle title serverName hours limit (postprocessSummary raw) m lbl] := by
  intro raw
  have h41 : truncMarker.length = 41 := rfl
  have hlen : (postprocessSummary raw).length ≤ MAX_EMBED_LENGTH := by
    unfold postprocessSummary MAX_EMBED_LENGTH
    by_cases hr : raw.length > 4000
    · rw [if_pos hr]
      simp only [List.length_append, List.length_take, h41]
      omega
    · rw [if_neg hr]
      omega
  refine ⟨hlen, ?_, ?_⟩
  · intro h4
    unfold postprocessSummary
    rw [if_pos h4]
    simp only [List.length_append, List.length_take, h41]
    omega
  · intro title serverName lbl hours limit m
    unfold deliverEmbeds
    rw [if_pos hlen]

/-- Witness for C9's amended theorem at a concrete over-long reply. -/
theorem C9_summary_fits_single_embed_witness :
    (postprocessSummary (List.replicate 4001 'x')).length = 3991 :=
  (C9_summary_fits_single_embed (List.replicate 4001 'x')).2.1
    (by simp only [List.length_replicate]; omega)

-- ======================================================================
-- C10: fetch_messages drops bot-authored messages
-- ======================================================================

/-- C10: every entry `fetch_messages` returns originates from a
history message whose author is not a bot. -/
theorem C10_fetch_filters_bots :
    ∀ (hist : List HistMsg) (limit hours : Option Nat) (d : MsgDict),
      d ∈ fetch_messages hist limit hours →
      ∃ m : HistMsg, m ∈ hist ∧ m.isBot = false ∧ d = renderMsg m := by
  intro hist limit hours d hd
  unfold fetch_messages at hd
  obtain ⟨m, hm, rfl⟩ := List.mem_map.mp hd
  have h1 := List.mem_filter.mp hm
  refine ⟨m, List.take_subset _ _ h1.1, ?_, rfl⟩
  simpa using h1.2

def demoHist : List HistMsg :=
  [⟨true, "spambot".toList, "buy".toList, "t0".toList⟩,
   ⟨false, "alice".toList, "hi".toList, "t1".toList⟩]

/-- Witness for C10 on a concrete mixed history. -/
theorem C10_fetch_filters_bots_witness :
    ∃ m : HistMsg, m ∈ demoHist ∧ m.isBot = false ∧
      (⟨"alice".toList, "hi".toList, "t1".toList⟩ : MsgDict) = renderMsg m :=
  C10_fetch_filters_bots demoHist none none
    ⟨"alice".toList, "hi".toList, "t1".toList⟩ (by decide)

-- ======================================================================
-- C8: empty fetch result never reaches the summarizer
-- ======================================================================

/-- C8: when fetch yields no messages the pipeline emits the
informational notice with zero summarizer invocations, and the
invocation count is zero exactly in that case. -/
theorem C8_empty_fetch_skips_summarizer :
    ∀ (summarizer : List MsgDict → Str) (channelName : Str) (hist : List HistMsg)
      (limit hours : Option Nat),
      (fetch_messages hist limit hours = [] →
        runAfterFetch summarizer channelName hours (fetch_messages hist limit hours) =
          (.emptyResult (emptyNotice channelName hours), 0)) ∧
      ∀ msgs : List MsgDict,
        (runAfterFetch summarizer channelName hours msgs).2 = 0 ↔ msgs = [] := by
  intro summarizer channelName hist limit hours
  constructor
  · intro h
    rw [h]
    rfl
  · intro msgs
    cases msgs with
    | nil => simp [runAfterFetch]
    | cons d ds =>
      unfold runAfterFetch
      rw [if_neg (by simp)]
      constructor
      · intro hh
        exfalso
        revert hh
        simp only []
        split <;> simp
      · intro hh
        exact absurd hh (by simp)

/-- Witness for C8: a one-hour window over a history of bot messages
fetches nothing and short-circuits with zero summarizer calls. -/
theorem C8_empty_fetch_skips_summarizer_witness :
    runAfterFetch (fun _ => "sum".toList) ("general".toList) (some 1)
        (fetch_messages [⟨true, "b".toList, "x".toList, "t".toList⟩] none (some 1)) =
      (.emptyResult (emptyNotice ("general".toList) (some 1)), 0) :=
  (C8_empty_fetch_skips_summarizer (fun _ => "sum".toList) ("general".toList)
      [⟨true, "b".toList, "x".toList, "t".toList⟩] none (some 1)).1 (by decide)

-- ======================================================================
-- C2: resolution never leaks an unreadable channel; one NotFound outcome
-- ======================================================================

/-- Soundness of the per-guild scan: a returned channel is in the list,
readable by the requester, and name-matching. -/
theorem findChannelInGuild_some {uid : Nat} {target : Str} :
    ∀ {chs : List GChannel} {ch : GChannel},
      findChannelInGuild uid target chs = some ch →
      ch ∈ chs ∧ ch.canRead uid = true ∧ pyLower ch.name = target := by
  intro chs
  induction chs with
  | nil => intro ch h; cases h
  | cons c rest ih =>
    intro ch h
    unfold findChannelInGuild at h
    by_cases hc : (pyLower c.name == target && c.canRead uid) = true
    · rw [if_pos hc] at h
      cases h
      have hb := Bool.and_elim_left hc
      have hr := Bool.and_elim_right hc
      exact ⟨List.mem_cons_self _ _, hr, by simpa using hb⟩
    · rw [if_neg hc] at h
      obtain ⟨hmem, hread, hname⟩ := ih h
      exact ⟨List.mem_cons_of_mem _ hmem, hread, hname⟩

/-- Completeness of the per-guild scan: it returns `none` exactly when
no channel of the guild both matches the name and is readable. -/
theorem findChannelInGuild_none {uid : Nat} {target : Str} :
    ∀ {chs : List GChannel},
      findChannelInGuild uid target chs = none ↔
        ∀ ch ∈ chs, ¬(pyLower ch.name = target ∧ ch.canRead uid = true) := by
  intro chs
  induction chs with
  | nil => simp [findChannelInGuild]
  | cons c rest ih =>
    unfold findChannelInGuild
    by_cases hc : (pyLower c.name == target && c.canRead uid) = true
    · rw [if_pos hc]
      have hb := Bool.and_elim_left hc
      have hr := Bool.and_elim_right hc
      simp only [List.mem_cons]
      constructor
      · intro h; cases h
      · intro h
        exact absurd ⟨by simpa using hb, hr⟩ (h c (Or.inl rfl))
    · rw [if_neg hc]
      rw [ih]
      simp only [List.mem_cons]
      constructor
      · intro h ch hch
        rcases hch with rfl | hch
        · intro ⟨hn, hr⟩
          exact hc (by simp [hn, hr])
        · exact h ch hch
      · intro h ch hch
        exact h ch (Or.inr hch)

/-- C2: `find_channel_in_guilds` only ever returns a channel of a
guild the requester belongs to which the requester can read (and whose
name matches), and it returns the single `none` outcome exactly when
no guild of the requester contains a readable name match — so a wrong
name, a missing membership and a denied permission are
indistinguishable in the result. -/
theorem C2_resolution_guarded :
    ∀ (guilds : List Guild) (channelName : Str) (uid : Nat),
      (∀ ch : GChannel, find_channel_in_guilds guilds channelName uid = some ch →
        ∃ g : Guild, g ∈ guilds ∧ g.hasMember uid = true ∧ ch ∈ g.textChannels ∧
          ch.canRead uid = true ∧ pyLower ch.name = normChannelName channelName) ∧
      (find_channel_in_guilds guilds channelName uid = none ↔
        ∀ g ∈ guilds, g.hasMember uid = true →
          ∀ ch ∈ g.textChannels,
            ¬(pyLower ch.name = normChannelName channelName ∧ ch.canRead uid = true)) := by
  intro guilds channelName uid
  induction guilds with
  | nil =>
    constructor
    · intro ch h; cases h
    · simp [find_channel_in_guilds, find_channel_in_guilds.go]
  | cons g gs ih =>
    have hgo : ∀ gl, find_channel_in_guilds gl channelName uid =
        find_channel_in_guilds.go channelName uid gl := fun _ => rfl
    constructor
    · intro ch h
      rw [hgo] at h
      unfold find_channel_in_guilds.go at h
      by_cases hm : g.hasMember uid = true
      · rw [if_pos hm] at h
        cases hf : findChannelInGuild uid (normChannelName channelName) g.textChannels with
        | some ch' =>
          rw [hf] at h
          cases h
          obtain ⟨hmem, hread, hname⟩ := findChannelInGuild_some hf
          exact ⟨g, List.mem_cons_self _ _, hm, hmem, hread, hname⟩
        | none =>
          rw [hf] at h
          obtain ⟨g', hg', hm', rest⟩ := ih.1 ch h
          exact ⟨g', List.mem_cons_of_mem _ hg', hm', rest⟩
      · rw [if_neg hm] at h
        obtain ⟨g', hg', hm', rest⟩ := ih.1 ch h
        exact ⟨g', List.mem_cons_of_mem _ hg', hm', rest⟩
    · rw [hgo]
      unfold find_channel_in_guilds.go
      by_cases hm : g.hasMember uid = true
      · rw [if_pos hm]
        cases hf : findChannelInGuild uid (normChannelName channelName) g.textChannels with
        | some ch' =>
          simp only [List.mem_cons]
          constructor
          · intro h; cases h
          · intro h
            obtain ⟨hmem, hread, hname⟩ := findChannelInGuild_some hf
            exact absurd ⟨hname, hread⟩ (h g (Or.inl rfl) hm ch' hmem)
        | none =>
          have hguild := findChannelInGuild_none.mp hf
          show find_channel_in_guilds gs channelName uid = none ↔ _
          rw [ih.2]
          simp only [List.mem_cons]
          constructor
          · intro h g' hg' hm' ch hch
            rcases hg' with rfl | hg'
            · exact hguild ch hch
            · exact h g' hg' hm' ch hch
          · intro h g' hg' hm' ch hch
            exact h g' (Or.inr hg') hm' ch hch
      · rw [if_neg hm]
        show find_channel_in_guilds gs channelName uid = none ↔ _
        rw [ih.2]
        simp only [List.mem_cons]
        constructor
        · intro h g' hg' hm' ch hch
          rcases hg' with rfl | hg'
          · exact absurd hm' hm
          · exact h g' hg' hm' ch hch
        · intro h g' hg' hm' ch hch
          exact h g' (Or.inr hg') hm' ch hch

/-- A concrete channel only user 5 can read. -/
def demoChannel : GChannel := ⟨"general".toList, fun u => u == 5⟩

/-- A single demo guild with member 5. -/
def demoGuilds : List Guild := [⟨[5], [demoChannel]⟩]

/-- Witness for C2 on the demo guild: the channel the resolver returns
for user 5 is readable by user 5 in a guild user 5 belongs to. -/
theorem C2_resolution_guarded_witness :
    ∃ g : Guild, g ∈ demoGuilds ∧ g.hasMember 5 = true ∧ demoChannel ∈ g.textChannels ∧
      demoChannel.canRead 5 = true ∧
      pyLower demoChannel.name = normChannelName (" #General".toList) :=
  (C2_resolution_guarded demoGuilds (" #General".toList) 5).1 demoChannel rfl

-- ======================================================================
-- C3: hours are matched first and their digits removed before counting
-- ======================================================================

/-- The number of digit characters of a text. -/
def countDigits (s : Str) : Nat := (s.filter Char.isDigit).length

theorem countDigits_cons (c : Char) (l : Str) :
    countDigits (c :: l) = (if c.isDigit then 1 else 0) + countDigits l := by
  unfold countDigits
  rw [List.filter_cons]
  split <;> simp [Nat.add_comm]

theorem countDigits_append (l₁ l₂ : Str) :
    countDigits (l₁ ++ l₂) = countDigits l₁ + countDigits l₂ := by
  unfold countDigits
  rw [List.filter_append, List.length_append]

theorem countDigits_sublist {l₁ l₂ : Str} (h : l₁.Sublist l₂) :
    countDigits l₁ ≤ countDigits l₂ :=
  (h.filter _).length_le

/-- `occursB` is the infix relation. -/
theorem occursB_infix_iff {pat : Str} : ∀ {s : Str}, occursB pat s = true ↔ pat <:+: s := by
  intro s
  induction s with
  | nil => simp [occursB, List.infix_nil, List.isEmpty_iff]
  | cons c t ih =>
    unfold occursB
    rw [Bool.or_eq_true, List.isPrefixOf_iff_prefix, ih, List.infix_cons_iff]

/-- Replacing occurrences of anything by a space never adds digits. -/
theorem replaceAll_space_digits_le (pat : Str) :
    ∀ (n : Nat) (s : Str), s.length ≤ n →
      countDigits (replaceAll pat [' '] s) ≤ countDigits s := by
  intro n
  induction n with
  | zero =>
    intro s hs
    have : s = [] := List.length_eq_zero.mp (Nat.le_antisymm hs (Nat.zero_le _))
    subst this
    exact le_rfl
  | succ n ih =>
    intro s hs
    cases s with
    | nil => exact le_rfl
    | cons c t =>
      rw [replaceAll_cons]
      by_cases hp : pat.isPrefixOf (c :: t) = true
      · rw [if_pos hp, countDigits_append]
        have h0 : countDigits [' '] = 0 := rfl
        rw [h0, Nat.zero_add]
        have hlen : (t.drop (pat.length - 1)).length ≤ n := by
          simp only [List.length_drop]
          simp only [List.length_cons] at hs
          omega
        calc countDigits (replaceAll pat [' '] (t.drop (pat.length - 1)))
            ≤ countDigits (t.drop (pat.length - 1)) := ih _ hlen
          _ ≤ countDigits t := countDigits_sublist (List.drop_sublist _ _)
          _ ≤ countDigits (c :: t) := by rw [countDigits_cons]; omega
      · rw [if_neg hp, countDigits_cons, countDigits_cons]
        have := ih t (by simp only [List.length_cons] at hs; omega)
        omega

/-- When `pat` occurs in `s`, replacing its occurrences by a space
removes at least one full copy of `pat`'s digits: the digits feeding
the hours match are taken out of the pool the count match sees. -/
theorem replaceAll_occurs_digits_aux (pat : Str) (hne : pat ≠ []) :
    ∀ (n : Nat) (s : Str), s.length ≤ n → occursB pat s = true →
      countDigits (replaceAll pat [' '] s) + countDigits pat ≤ countDigits s := by
  intro n
  induction n with
  | zero =>
    intro s hs hocc
    have : s = [] := List.length_eq_zero.mp (Nat.le_antisymm hs (Nat.zero_le _))
    subst this
    simp only [occursB, List.isEmpty_iff] at hocc
    exact absurd hocc hne
  | succ n ih =>
    intro s hs hocc
    cases s with
    | nil =>
      simp only [occursB, List.isEmpty_iff] at hocc
      exact absurd hocc hne
    | cons c t =>
      rw [replaceAll_cons]
      by_cases hp : pat.isPrefixOf (c :: t) = true
      · rw [if_pos hp, countDigits_append]
        have h0 : countDigits [' '] = 0 := rfl
        rw [h0, Nat.zero_add]
        obtain ⟨u, hu⟩ := List.isPrefixOf_iff_prefix.mp hp
        have hdrop : t.drop (pat.length - 1) = u := by
          have h1 : (pat ++ u).drop pat.length = u := List.drop_left _ _
          rw [hu] at h1
          cases pat with
          | nil => exact absurd rfl hne
          | cons p pr => simpa using h1
        have hcd : countDigits (c :: t) = countDigits pat + countDigits u := by
          rw [← hu, countDigits_append]
        rw [hdrop, hcd]
        have hulen : u.length ≤ n := by
          have := congrArg List.length hu
          simp only [List.length_append, List.length_cons] at this
          have hpat1 : 1 ≤ pat.length := by
            cases pat with
            | nil => exact absurd rfl hne
            | cons p pr => simp
          simp only [List.length_cons] at hs
          omega
        have := replaceAll_space_digits_le pat n u hulen
        omega
      · rw [if_neg hp, countDigits_cons, countDigits_cons]
        have hocc' : occursB pat t = true := by
          unfold occursB at hocc
          rw [Bool.or_eq_true] at hocc
          rcases hocc with h | h
          · exact absurd h hp
          · exact h
        have := ih t (by simp only [List.length_cons] at hs; omega) hocc'
        omega

/-- Occurrence form of the digit-removal inequality. -/
theorem replaceAll_occurs_digits {pat s : Str} (hne : pat ≠ [])
    (hocc : occursB pat s = true) :
    countDigits (replaceAll pat [' '] s) + countDigits pat ≤ countDigits s :=
  replaceAll_occurs_digits_aux pat hne s.length s le_rfl hocc

/-- A successful anchored hours match returns its matched span, a
nonempty prefix of the text. -/
theorem hoursMatchAt_spec {s g0 : Str} {hv : Nat}
    (h : hoursMatchAt s = some (g0, hv)) : g0 <+: s ∧ g0 ≠ [] := by
  unfold hoursMatchAt at h
  split at h
  · rename_i d ds t' heq heq2
    injection h with h'
    have hg0 : g0 = (d :: ds) ++ (s.dropWhile Char.isDigit).takeWhile pyWs ++ 'h' ::
        (if ("ours".toList).isPrefixOf t' then "ours".toList
         else if ("our".toList).isPrefixOf t' then "our".toList else []) := by
      have := congrArg Prod.fst h'
      simpa using this.symm
    have htl : (if ("ours".toList).isPrefixOf t' then "ours".toList
         else if ("our".toList).isPrefixOf t' then "our".toList else []) <+: t' := by
      split
      · exact List.isPrefixOf_iff_prefix.mp (by assumption)
      · split
        · exact List.isPrefixOf_iff_prefix.mp (by assumption)
        · exact List.nil_prefix
    obtain ⟨u, hu⟩ := htl
    constructor
    · refine ⟨u, ?_⟩
      rw [hg0]
      have hs1 : s = (d :: ds) ++ s.dropWhile Char.isDigit := by
        conv_rhs => rw [← heq]
        rw [List.takeWhile_append_dropWhile]
      have hs2 : s.dropWhile Char.isDigit =
          (s.dropWhile Char.isDigit).takeWhile pyWs ++ ('h' :: t') := by
        conv_lhs => rw [← List.takeWhile_append_dropWhile pyWs (s.dropWhile Char.isDigit)]
        rw [heq2]
      conv_rhs => rw [hs1, hs2]
      simp only [List.append_assoc, List.cons_append]
      rw [hu]
    · rw [hg0]
      simp
  · cases h

/-- A successful hours search returns a nonempty matched span that
occurs in the text. -/
theorem hoursSearch_spec : ∀ {s g0 : Str} {hv : Nat},
    hoursSearch s = some (g0, hv) → occursB g0 s = true ∧ g0 ≠ [] := by
  intro s
  induction s with
  | nil => intro g0 hv h; cases h
  | cons c t ih =>
    intro g0 hv h
    unfold hoursSearch at h
    cases hm : hoursMatchAt (c :: t) with
    | some r =>
      rw [hm] at h
      injection h with h'
      subst h'
      obtain ⟨hpre, hne⟩ := hoursMatchAt_spec hm
      have hinf := List.IsPrefix.isInfix hpre
      exact ⟨occursB_infix_iff.mpr hinf, hne⟩
    | none =>
      rw [hm] at h
      obtain ⟨hocc, hne⟩ := ih h
      refine ⟨?_, hne⟩
      unfold occursB
      rw [hocc]
      simp

/-- The claimed non-overlap discipline of the Deepseek parser, per
input: the count text is exactly the normalised content with every
occurrence of the matched hours span replaced by a space, and that
replacement removes at least the hours span's digits from the pool the
count match draws from. -/
def hoursRemovalSound (s : Str) : Prop :=
  match hoursSearch (normContent s) with
  | some (g0, _) =>
      countTextOf s = replaceAll g0 [' '] (normContent s) ∧
      countDigits (countTextOf s) + countDigits g0 ≤ countDigits (normContent s)
  | none => countTextOf s = normContent s

/-- C3: the Deepseek variant matches hours first and strips the
matched span before count matching, so the two fields never draw on
overlapping digits; the OpenAI variant does neither and produces
`limit = 2` together with `hours = 24` from the overlapping digits of
`"24h"`. -/
theorem C3_overlap_discipline :
    (parse_user_request_v1 ("24h".toList)).limit = some 2 ∧
    (parse_user_request_v1 ("24h".toList)).hours = some 24 ∧
    (parse_user_request ("24h".toList)).limit = none ∧
    (parse_user_request ("24h".toList)).hours = some 24 ∧
    (∀ s : Str, (parse_user_request s).limit = limitFromCount (dsCountSearch (countTextOf s))) ∧
    ∀ s : Str, hoursRemovalSound s := by
  refine ⟨by decide, by decide, by decide, by decide, fun s => rfl, fun s => ?_⟩
  unfold hoursRemovalSound
  cases hh : hoursSearch (normContent s) with
  | none => simp [countTextOf, hoursAndCountText, hh]
  | some r =>
    obtain ⟨g0, hv⟩ := r
    have hct : countTextOf s = replaceAll g0 [' '] (normContent s) := by
      simp [countTextOf, hoursAndCountText, hh]
    refine ⟨hct, ?_⟩
    rw [hct]
    obtain ⟨hocc, hne⟩ := hoursSearch_spec hh
    exact replaceAll_occurs_digits hne hocc

-- ======================================================================
-- C4: fallback channel extraction and keyword-occurrence choice
-- ======================================================================

theorem pySplitOn_ne_nil (sep s : Str) : pySplitOn sep s ≠ [] := by
  cases s with
  | nil => simp [pySplitOn, pySplitOnF]
  | cons c t =>
    rw [pySplitOn_cons]
    split
    · simp
    · cases pySplitOn sep t <;> simp

theorem pySplitOn_no_occurrence (sep : Str) :
    ∀ s : Str, occursB sep s = false → pySplitOn sep s = [s] := by
  intro s
  induction s with
  | nil =>
    intro h
    rfl
  | cons c t ih =>
    intro h
    unfold occursB at h
    rw [Bool.or_eq_false_iff] at h
    rw [pySplitOn_cons, if_neg (by simp [h.1]), ih h.2]

theorem pySplitOn_length_ge_two (sep : Str) :
    ∀ s : Str, occursB sep s = true → sep ≠ [] → 2 ≤ (pySplitOn sep s).length := by
  intro s
  induction s with
  | nil =>
    intro h hne
    simp only [occursB, List.isEmpty_iff] at h
    exact absurd h hne
  | cons c t ih =>
    intro h hne
    rw [pySplitOn_cons]
    by_cases hp : sep.isPrefixOf (c :: t) = true
    · rw [if_pos hp]
      have := pySplitOn_ne_nil sep (t.drop (sep.length - 1))
      cases hps : pySplitOn sep (t.drop (sep.length - 1)) with
      | nil => exact absurd hps this
      | cons x xs => simp
    · rw [if_neg hp]
      have hocc : occursB sep t = true := by
        unfold occursB at h
        rw [Bool.or_eq_true] at h
        rcases h with h | h
        · exact absurd h hp
        · exact h
      have h2 := ih hocc hne
      cases hps : pySplitOn sep t with
      | nil => exact absurd hps (pySplitOn_ne_nil sep t)
      | cons x xs =>
        rw [hps] at h2
        simpa using h2

theorem getLastD_irrel {α : Type} {l : List α} (h : l ≠ []) (d d' : α) :
    l.getLastD d = l.getLastD d' := by
  cases l with
  | nil => exact absurd rfl h
  | cons a t => rw [List.getLastD_cons, List.getLastD_cons]

/-- Fuel-driven core of "the suffix after the last (scanned) occurrence
of `pat`"; the fuel never runs out when called through `afterLastOcc`. -/
def afterLastOccF (pat : Str) : Nat → Str → Str
  | _, [] => []
  | 0, s => s
  | fuel + 1, c :: t =>
    if pat.isPrefixOf (c :: t) then
      if occursB pat (t.drop (pat.length - 1)) then
        afterLastOccF pat fuel (t.drop (pat.length - 1))
      else t.drop (pat.length - 1)
    else afterLastOccF pat fuel t

/-- The suffix of `s` after the last occurrence of `pat` found by a
left-to-right non-overlapping scan (the reading of "text after the
last occurrence" matching Python `split()[-1]`). -/
def afterLastOcc (pat s : Str) : Str := afterLastOccF pat s.length s

theorem afterLastOccF_fuel (pat : Str) :
    ∀ (f₁ : Nat) (s : Str) (f₂ : Nat), s.length ≤ f₁ → s.length ≤ f₂ →
      afterLastOccF pat f₁ s = afterLastOccF pat f₂ s := by
  intro f₁
  induction f₁ with
  | zero =>
    intro s f₂ h₁ _
    have hs : s = [] := List.length_eq_zero.mp (Nat.le_antisymm h₁ (Nat.zero_le _))
    subst hs
    cases f₂ <;> rfl
  | succ f ih =>
    intro s f₂ h₁ h₂
    cases s with
    | nil => cases f₂ <;> rfl
    | cons c t =>
      cases f₂ with
      | zero => simp at h₂
      | succ f' =>
        simp only [afterLastOccF]
        have hd : (t.drop (pat.length - 1)).length ≤ t.length := by
          simp [List.length_drop]
        have ht : t.length ≤ f := by simpa using h₁
        have ht' : t.length ≤ f' := by simpa using h₂
        rw [ih (t.drop (pat.length - 1)) f' (le_trans hd ht) (le_trans hd ht'),
          ih t f' ht ht']

theorem afterLastOcc_cons (pat : Str) (c : Char) (t : Str) :
    afterLastOcc pat (c :: t) =
      if pat.isPrefixOf (c :: t) then
        if occursB pat (t.drop (pat.length - 1)) then
          afterLastOcc pat (t.drop (pat.length - 1))
        else t.drop (pat.length - 1)
      else afterLastOcc pat t := by
  show afterLastOccF pat (t.length + 1) (c :: t) = _
  simp only [afterLastOccF]
  rw [afterLastOccF_fuel pat t.length (t.drop (pat.length - 1))
      (t.drop (pat.length - 1)).length (by simp [List.length_drop]) le_rfl,
    afterLastOccF_fuel pat t.length t t.length le_rfl le_rfl]
  rfl

/-- The suffix of `s` after the first occurrence of `pat` (the
algorithm the claim describes); `[]` when `pat` does not occur. -/
def afterFirstOcc (pat : Str) : Str → Str
  | [] => []
  | c :: t =>
    if pat.isPrefixOf (c :: t) then t.drop (pat.length - 1)
    else afterFirstOcc pat t

/-- Python `split(keyword)[-1]` is exactly the text after the last
scanned occurrence of the keyword, whenever the keyword occurs. -/
theorem pySplitLast_eq_afterLastOcc_aux (pat : Str) (hne : pat ≠ []) :
    ∀ (n : Nat) (s : Str), s.length ≤ n → occursB pat s = true →
      pySplitLast pat s = afterLastOcc pat s := by
  intro n
  induction n with
  | zero =>
    intro s hs hocc
    have : s = [] := List.length_eq_zero.mp (Nat.le_antisymm hs (Nat.zero_le _))
    subst this
    simp only [occursB, List.isEmpty_iff] at hocc
    exact absurd hocc hne
  | succ n ih =>
    intro s hs hocc
    cases s with
    | nil =>
      simp only [occursB, List.isEmpty_iff] at hocc
      exact absurd hocc hne
    | cons c t =>
      rw [afterLastOcc_cons]
      unfold pySplitLast
      rw [pySplitOn_cons]
      by_cases hp : pat.isPrefixOf (c :: t) = true
      · rw [if_pos hp, if_pos hp]
        rw [List.getLastD_cons]
        by_cases hro : occursB pat (t.drop (pat.length - 1)) = true
        · rw [if_pos hro]
          have hlen : (t.drop (pat.length - 1)).length ≤ n := by
            simp only [List.length_drop]
            simp only [List.length_cons] at hs
            omega
          have := ih (t.drop (pat.length - 1)) hlen hro
          unfold pySplitLast at this
          rw [← this]
        · rw [if_neg hro,
            pySplitOn_no_occurrence pat _ (Bool.eq_false_iff.mpr hro)]
          rfl
      · rw [if_neg hp, if_neg hp]
        have hocc' : occursB pat t = true := by
          unfold occursB at hocc
          rw [Bool.or_eq_true] at hocc
          rcases hocc with h | h
          · exact absurd h hp
          · exact h
        have h2 := pySplitOn_length_ge_two pat t hocc' hne
        cases hps : pySplitOn pat t with
        | nil => exact absurd hps (pySplitOn_ne_nil pat t)
        | cons x xs =>
          rw [hps] at h2
          have hxs : xs ≠ [] := by
            cases xs with
            | nil => simp at h2
            | cons y ys => simp
          show List.getLastD ((c :: x) :: xs) [] = afterLastOcc pat t
          rw [List.getLastD_cons]
          have hihres := ih t (by simp only [List.length_cons] at hs; omega) hocc'
          unfold pySplitLast at hihres
          rw [hps, List.getLastD_cons] at hihres
          rw [← hihres]
          exact getLastD_irrel hxs _ _

theorem pySplitLast_eq_afterLastOcc {pat s : Str} (hne : pat ≠ [])
    (hocc : occursB pat s = true) : pySplitLast pat s = afterLastOcc pat s :=
  pySplitLast_eq_afterLastOcc_aux pat hne s.length s le_rfl hocc

/-- The fallback extraction as the claim words it: text after the
first occurrence of the first listed keyword that occurs, whitespace
tokens, skip-set walk, leading `#` stripped. -/
def fallbackChannelClaimed (cl : Str) : Option Str :=
  match channelKeywords.find? (fun k => occursB k cl) with
  | none => none
  | some k =>
    match (pySplitWs (afterFirstOcc k cl)).find? (fun w => !(skip_words.contains w)) with
    | some w => some (lstripHash w)
    | none => none

/-- The fallback extraction with the claim's "first occurrence"
corrected to "last occurrence" (Python `split(keyword)[-1]`). -/
def fallbackChannelAmended (cl : Str) : Option Str :=
  match channelKeywords.find? (fun k => occursB k cl) with
  | none => none
  | some k =>
    match (pySplitWs (pyStrip (afterLastOcc k cl))).find?
        (fun w => !(skip_words.contains w)) with
    | some w => some (lstripHash w)
    | none => none

/-- C4 counterexample: on `"in x in y"` the claim's algorithm (text
after the first occurrence of `"in"`) yields channel `"x"`, but
`parse_user_request` takes the text after the last occurrence and
yields `"y"`. -/
theorem C4_first_occurrence_cex :
    fallbackChannelClaimed ("in x in y".toList) = some ("x".toList) ∧
    hashChannelSearch (normContent ("in x in y".toList)) = none ∧
    (parse_user_request ("in x in y".toList)).channel = some ("y".toList) ∧
    some ("y".toList : Str) ≠ some ("x".toList : Str) := by decide

/-- C4 amended: in the no-`#` case the parsed channel is computed by
the claim's algorithm with "first occurrence" replaced by "last
occurrence" of the keyword, and the claim's own worked example holds. -/
theorem C4_fallback_after_last_occurrence :
    (∀ s : Str, hashChannelSearch (normContent s) = none →
      (parse_user_request s).channel = fallbackChannelAmended (normContent s)) ∧
    parse_user_request ("catch me up on announcements".toList) =
      ⟨some ("announcements".toList), none, none, false⟩ := by
  constructor
  · intro s h
    have hch : (parse_user_request s).channel =
        (match hashChannelSearch (normContent s) with
         | some nm => some nm
         | none => fallbackChannel (normContent s)) := rfl
    rw [hch, h]
    unfold fallbackChannel fallbackChannelAmended
    cases hk : channelKeywords.find? (fun k => occursB k (normContent s)) with
    | none => rfl
    | some k =>
      have hocc : occursB k (normContent s) = true := by
        have := List.find?_some hk
        simpa using this
      have hkm : k ∈ channelKeywords := List.mem_of_find?_eq_some hk
      have hall : ∀ x ∈ channelKeywords, x ≠ [] := by decide
      show (match (pySplitWs (pyStrip (pySplitLast k (normContent s)))).find?
          (fun w => !(skip_words.contains w)) with
        | some w => some (lstripHash w)
        | none => none) =
        (match (pySplitWs (pyStrip (afterLastOcc k (normContent s)))).find?
          (fun w => !(skip_words.contains w)) with
        | some w => some (lstripHash w)
        | none => none)
      rw [pySplitLast_eq_afterLastOcc (hall k hkm) hocc]
  · decide

/-- Witness for C4's amended theorem at the claim's worked example. -/
theorem C4_fallback_after_last_occurrence_witness :
    (parse_user_request ("catch me up on announcements".toList)).channel =
      fallbackChannelAmended (normContent ("catch me up on announcements".toList)) :=
  C4_fallback_after_last_occurrence.1 _ (by decide)

-- ======================================================================
-- C5 and C6: the paragraph chunker
-- ======================================================================

/-- A paragraph in the form the round-trip invariant needs: nonempty,
already stripped, and free of the blank-line separator. -/
abbrev cleanPara (q : Str) : Prop :=
  q ≠ [] ∧ pyStrip q = q ∧ occursB sep2 q = false

theorem dropWhile_eq_self_of_head {p : Char → Bool} {l : Str}
    (h : ∀ c, l.head? = some c → p c = false) : l.dropWhile p = l := by
  cases l with
  | nil => rfl
  | cons a t =>
    rw [List.dropWhile_cons, if_neg (by rw [h a rfl]; simp)]

theorem dropWhile_eq_self_head {p : Char → Bool} {l : Str} (hl : l.dropWhile p = l) :
    ∀ c, l.head? = some c → p c = false := by
  intro c hc
  cases l with
  | nil => cases hc
  | cons a t =>
    injection hc with hc'
    subst hc'
    by_contra hp
    rw [Bool.not_eq_false] at hp
    rw [List.dropWhile_cons, if_pos hp] at hl
    have hlen := congrArg List.length hl
    have hle := (@List.dropWhile_sublist _ t p).length_le
    simp only [List.length_cons] at hlen
    omega

/-- A strip-invariant text is invariant under each of its two
`dropWhile` passes. -/
theorem pyStrip_eq_self_parts {q : Str} (hq : pyStrip q = q) :
    q.dropWhile pyWs = q ∧ q.reverse.dropWhile pyWs = q.reverse := by
  have h1 : (pyStrip q).length ≤ ((q.dropWhile pyWs).reverse.dropWhile pyWs).length := by
    unfold pyStrip
    rw [List.length_reverse]
  have h2 : ((q.dropWhile pyWs).reverse.dropWhile pyWs).length ≤ (q.dropWhile pyWs).length := by
    calc ((q.dropWhile pyWs).reverse.dropWhile pyWs).length
        ≤ (q.dropWhile pyWs).reverse.length := (List.dropWhile_sublist _).length_le
      _ = (q.dropWhile pyWs).length := List.length_reverse _
  have h3 : (q.dropWhile pyWs).length ≤ q.length := (List.dropWhile_sublist _).length_le
  have hq' := congrArg List.length hq
  have hdw : q.dropWhile pyWs = q :=
    (List.dropWhile_suffix pyWs).eq_of_length (by omega)
  refine ⟨hdw, ?_⟩
  have hrev : (q.reverse.dropWhile pyWs).length = q.reverse.length := by
    rw [hdw] at h1 h2
    rw [List.length_reverse]
    omega
  exact (List.dropWhile_suffix pyWs).eq_of_length hrev

theorem pyStrip_head_nonws {q : Str} (hq : pyStrip q = q) :
    ∀ c, q.head? = some c → pyWs c = false :=
  dropWhile_eq_self_head (pyStrip_eq_self_parts hq).1

theorem pyStrip_last_nonws {q : Str} (hq : pyStrip q = q) :
    ∀ c, q.getLast? = some c → pyWs c = false := by
  intro c hc
  have := dropWhile_eq_self_head (pyStrip_eq_self_parts hq).2
  exact this c (by rw [List.head?_reverse]; exact hc)

/-- A clean paragraph does not end in a newline. -/
theorem cleanPara_last_ne_nl {q : Str} (hq : cleanPara q) :
    ∀ c, q.getLast? = some c → c ≠ '\n' := by
  intro c hc hnl
  subst hnl
  have := pyStrip_last_nonws hq.2.1 _ hc
  simp [pyWs] at this

/-- The first split part is an initial segment of the input. -/
theorem pySplitOn_head_initial (sep : Str) :
    ∀ s : Str, ∃ x xs, pySplitOn sep s = x :: xs ∧ x <+: s := by
  intro s
  induction s with
  | nil => exact ⟨[], [], rfl, List.nil_prefix⟩
  | cons c t ih =>
    rw [pySplitOn_cons]
    by_cases hp : sep.isPrefixOf (c :: t) = true
    · rw [if_pos hp]
      exact ⟨[], _, rfl, List.nil_prefix⟩
    · rw [if_neg hp]
      obtain ⟨x, xs, hx, hpre⟩ := ih
      rw [hx]
      obtain ⟨u, hu⟩ := hpre
      exact ⟨c :: x, xs, rfl, ⟨u, by rw [List.cons_append, hu]⟩⟩

theorem occursB_nil_of_ne {sep : Str} (hsep : sep ≠ []) : occursB sep [] = false := by
  cases sep with
  | nil => exact absurd rfl hsep
  | cons a t => rfl

/-- No split part contains the separator. -/
theorem mem_pySplitOn_sep_free {sep : Str} (hsep : sep ≠ []) :
    ∀ (n : Nat) (s : Str), s.length ≤ n → ∀ p ∈ pySplitOn sep s, occursB sep p = false := by
  intro n
  induction n with
  | zero =>
    intro s hs p hp
    have : s = [] := List.length_eq_zero.mp (Nat.le_antisymm hs (Nat.zero_le _))
    subst this
    have : p = [] := by
      have hps : pySplitOn sep ([] : Str) = [[]] := rfl
      rw [hps] at hp
      simpa using hp
    subst this
    exact occursB_nil_of_ne hsep
  | succ n ih =>
    intro s hs p hp
    cases s with
    | nil =>
      have : p = [] := by
        have hps : pySplitOn sep ([] : Str) = [[]] := rfl
        rw [hps] at hp
        simpa using hp
      subst this
      exact occursB_nil_of_ne hsep
    | cons c t =>
      rw [pySplitOn_cons] at hp
      by_cases hpre : sep.isPrefixOf (c :: t) = true
      · rw [if_pos hpre] at hp
        rcases List.mem_cons.mp hp with rfl | hp'
        · exact occursB_nil_of_ne hsep
        · have hlen : (t.drop (sep.length - 1)).length ≤ n := by
            simp only [List.length_drop]
            simp only [List.length_cons] at hs
            omega
          exact ih _ hlen p hp'
      · rw [if_neg hpre] at hp
        obtain ⟨x, xs, hx, hxpre⟩ := pySplitOn_head_initial sep t
        rw [hx] at hp
        rcases List.mem_cons.mp hp with rfl | hp'
        · have hxfree : occursB sep x = false :=
            ih t (by simp only [List.length_cons] at hs; omega) x (by rw [hx]; simp)
          unfold occursB
          rw [hxfree, Bool.or_false]
          by_contra hcx
          rw [Bool.not_eq_false] at hcx
          have h1 : sep <+: c :: x := List.isPrefixOf_iff_prefix.mp hcx
          obtain ⟨u, hu⟩ := hxpre
          have h2 : (c :: x) <+: (c :: t) := ⟨u, by rw [List.cons_append, hu]⟩
          exact hpre <| List.isPrefixOf_iff_prefix.mpr (h1.trans h2)
        · exact ih t (by simp only [List.length_cons] at hs; omega) p (by rw [hx]; exact List.mem_cons_of_mem _ hp')

/-- The paragraphs of one chunk, joined the way `chunkGo` builds the
running chunk (separator between consecutive paragraphs). -/
def joinSep : List Str → Str
  | [] => []
  | q :: qs =>
    match qs with
    | [] => q
    | _ :: _ => q ++ sep2 ++ joinSep qs

/-- The running chunk corresponding to the accumulated paragraphs
(each paragraph append adds the trailing separator). -/
def joinT (cs : List Str) : Str :=
  match cs with
  | [] => []
  | _ :: _ => joinSep cs ++ sep2

/-- The paragraph sequences of a chunk list, concatenated. -/
def chunksParas (l : List Str) : List Str := (l.map (pySplitOn sep2)).flatten

theorem joinSep_ne_nil : ∀ {qs : List Str}, qs ≠ [] → (∀ q ∈ qs, q ≠ []) →
    joinSep qs ≠ [] := by
  intro qs hne hq
  cases qs with
  | nil => exact absurd rfl hne
  | cons q rest =>
    cases rest with
    | nil => exact hq q (by simp)
    | cons q' rest' =>
      show q ++ sep2 ++ joinSep (q' :: rest') ≠ []
      simp [sep2]

theorem joinSep_head? {qs : List Str} {q : Str} (hq : q ≠ []) :
    (joinSep (q :: qs)).head? = q.head? := by
  cases qs with
  | nil => rfl
  | cons q' rest =>
    show (q ++ sep2 ++ joinSep (q' :: rest)).head? = q.head?
    cases q with
    | nil => exact absurd rfl hq
    | cons c t => rfl

theorem head?_append_left {l m : Str} (h : l ≠ []) : (l ++ m).head? = l.head? := by
  cases l with
  | nil => exact absurd rfl h
  | cons a t => rfl

theorem joinSep_getLast_nonws : ∀ {qs : List Str}, qs ≠ [] →
    (∀ q ∈ qs, cleanPara q) →
    ∀ c, (joinSep qs).getLast? = some c → pyWs c = false := by
  intro qs
  induction qs with
  | nil => intro h; exact absurd rfl h
  | cons q rest ih =>
    intro _ hcl c hc
    cases rest with
    | nil =>
      exact pyStrip_last_nonws (hcl q (by simp)).2.1 c hc
    | cons q' rest' =>
      have hjoin : joinSep (q :: q' :: rest') = (q ++ sep2) ++ joinSep (q' :: rest') := by
        show q ++ sep2 ++ joinSep (q' :: rest') = _
        rw [List.append_assoc]
      rw [hjoin] at hc
      have hne : joinSep (q' :: rest') ≠ [] :=
        joinSep_ne_nil (by simp) (fun x hx => (hcl x (List.mem_cons_of_mem _ hx)).1)
      rw [List.getLast?_append_of_ne_nil _ hne] at hc
      exact ih (by simp) (fun x hx => hcl x (List.mem_cons_of_mem _ hx)) c hc

/-- Stripping the running chunk removes exactly the trailing
separator when the accumulated paragraphs are clean. -/
theorem pyStrip_joinSep {qs : List Str} (hne : qs ≠ []) (hcl : ∀ q ∈ qs, cleanPara q) :
    pyStrip (joinSep qs ++ sep2) = joinSep qs := by
  obtain ⟨q0, qs', rfl⟩ : ∃ q0 qs', qs = q0 :: qs' := by
    cases qs with
    | nil => exact absurd rfl hne
    | cons a b => exact ⟨a, b, rfl⟩
  have hq0 : q0 ≠ [] := (hcl q0 (by simp)).1
  have hjne : joinSep (q0 :: qs') ≠ [] :=
    joinSep_ne_nil (by simp) (fun x hx => (hcl x hx).1)
  have hh : ∀ c, (joinSep (q0 :: qs') ++ sep2).head? = some c → pyWs c = false := by
    intro c hc
    rw [head?_append_left hjne, joinSep_head? hq0] at hc
    exact pyStrip_head_nonws (hcl q0 (by simp)).2.1 c hc
  unfold pyStrip
  rw [dropWhile_eq_self_of_head hh, List.reverse_append]
  have hrev : (sep2).reverse = sep2 := rfl
  rw [hrev]
  show (List.dropWhile pyWs ('\n' :: '\n' :: (joinSep (q0 :: qs')).reverse)).reverse = _
  rw [List.dropWhile_cons, if_pos (by rfl), List.dropWhile_cons, if_pos (by rfl)]
  rw [dropWhile_eq_self_of_head (by
    intro c hc
    rw [List.head?_reverse] at hc
    exact joinSep_getLast_nonws (by simp) hcl c hc)]
  exact List.reverse_reverse _

theorem isPrefixOf_sep2_nlnl (r : Str) : sep2.isPrefixOf ('\n' :: '\n' :: r) = true := by
  simp [sep2, List.isPrefixOf]

/-- Splitting `q ++ sep2 ++ r` peels off the clean paragraph `q`. -/
theorem pySplitOn_sep2_append : ∀ (q r : Str), occursB sep2 q = false →
    (∀ c, q.getLast? = some c → c ≠ '\n') →
    pySplitOn sep2 (q ++ sep2 ++ r) = q :: pySplitOn sep2 r := by
  intro q
  induction q with
  | nil =>
    intro r _ _
    show pySplitOn sep2 ('\n' :: '\n' :: r) = [] :: pySplitOn sep2 r
    rw [pySplitOn_cons, if_pos (isPrefixOf_sep2_nlnl r)]
    rfl
  | cons c q' ih =>
    intro r hfree hlast
    show pySplitOn sep2 (c :: (q' ++ sep2 ++ r)) = (c :: q') :: pySplitOn sep2 r
    rw [pySplitOn_cons]
    have hnp : sep2.isPrefixOf (c :: (q' ++ sep2 ++ r)) = false := by
      cases q' with
      | nil =>
        have hc : c ≠ '\n' := hlast c rfl
        show (('\n' == c) && _) = false
        rw [beq_eq_false_iff_ne.mpr (Ne.symm hc)]
        rfl
      | cons d q'' =>
        unfold occursB at hfree
        rw [Bool.or_eq_false_iff] at hfree
        have hpre0 : sep2.isPrefixOf (c :: d :: q'') = false := hfree.1
        by_cases hc : c = '\n'
        · subst hc
          have hd : d ≠ '\n' := by
            intro hd
            subst hd
            rw [isPrefixOf_sep2_nlnl q''] at hpre0
            cases hpre0
          show (('\n' == '\n') && (('\n' == d) && _)) = false
          rw [beq_eq_false_iff_ne.mpr (Ne.symm hd)]
          rfl
        · show (('\n' == c) && _) = false
          rw [beq_eq_false_iff_ne.mpr (Ne.symm hc)]
          rfl
    rw [if_neg (by rw [hnp]; simp)]
    have hfree' : occursB sep2 q' = false := by
      unfold occursB at hfree
      rw [Bool.or_eq_false_iff] at hfree
      exact hfree.2
    have hlast' : ∀ x, q'.getLast? = some x → x ≠ '\n' := by
      intro x hx
      apply hlast
      cases q' with
      | nil => cases hx
      | cons d q'' => rw [List.getLast?_cons_cons]; exact hx
    rw [ih r hfree' hlast']

/-- Splitting the joined clean paragraphs recovers them exactly. -/
theorem pySplitOn_joinSep : ∀ {qs : List Str}, qs ≠ [] → (∀ q ∈ qs, cleanPara q) →
    pySplitOn sep2 (joinSep qs) = qs := by
  intro qs
  induction qs with
  | nil => intro h; exact absurd rfl h
  | cons q rest ih =>
    intro _ hcl
    cases rest with
    | nil =>
      show pySplitOn sep2 q = [q]
      exact pySplitOn_no_occurrence sep2 q (hcl q (by simp)).2.2
    | cons q' rest' =>
      show pySplitOn sep2 (q ++ sep2 ++ joinSep (q' :: rest')) = q :: (q' :: rest')
      rw [pySplitOn_sep2_append q _ (hcl q (by simp)).2.2
        (cleanPara_last_ne_nl (hcl q (by simp)))]
      rw [ih (by simp) (fun x hx => hcl x (List.mem_cons_of_mem _ hx))]

theorem joinSep_snoc : ∀ (qs : List Str) (p : Str), qs ≠ [] →
    joinSep (qs ++ [p]) = joinSep qs ++ sep2 ++ p := by
  intro qs
  induction qs with
  | nil => intro p h; exact absurd rfl h
  | cons q rest ih =>
    intro p _
    cases rest with
    | nil => rfl
    | cons q' rest' =>
      show q ++ sep2 ++ joinSep ((q' :: rest') ++ [p]) =
        (q ++ sep2 ++ joinSep (q' :: rest')) ++ sep2 ++ p
      rw [ih p (by simp)]
      simp [List.append_assoc]

theorem joinT_snoc (cs : List Str) (p : Str) :
    joinT cs ++ p ++ sep2 = joinT (cs ++ [p]) := by
  cases cs with
  | nil => simp [joinT, joinSep]
  | cons q cs' =>
    show (joinSep (q :: cs') ++ sep2) ++ p ++ sep2 = joinSep ((q :: cs') ++ [p]) ++ sep2
    rw [joinSep_snoc _ p (by simp)]

theorem joinT_isEmpty : ∀ {cs : List Str}, (joinT cs).isEmpty = true → cs = [] := by
  intro cs h
  cases cs with
  | nil => rfl
  | cons q cs' =>
    exfalso
    have : joinSep (q :: cs') ++ sep2 = [] := by
      rwa [List.isEmpty_iff] at h
    have := congrArg List.length this
    simp [sep2] at this

theorem chunksParas_append (a b : List Str) :
    chunksParas (a ++ b) = chunksParas a ++ chunksParas b := by
  unfold chunksParas
  rw [List.map_append, List.flatten_append]

theorem chunksParas_single (x : Str) : chunksParas [x] = pySplitOn sep2 x := by
  simp [chunksParas]

/-- The step equations of `chunkGo`, stated for rewriting. -/
theorem chunkGo_nil_ne {cur : Str} {acc : List Str} (h : cur.isEmpty = false) :
    chunkGo [] cur acc = acc ++ [pyStrip cur] := by
  show (if cur.isEmpty then acc else acc ++ [pyStrip cur]) = _
  rw [if_neg (by simp [h])]

theorem chunkGo_nil_emp {cur : Str} {acc : List Str} (h : cur.isEmpty = true) :
    chunkGo [] cur acc = acc := by
  show (if cur.isEmpty then acc else acc ++ [pyStrip cur]) = _
  rw [if_pos h]

theorem chunkGo_cons_lt {p cur : Str} {ps acc : List Str}
    (h : cur.length + p.length + 2 < MAX_EMBED_LENGTH) :
    chunkGo (p :: ps) cur acc = chunkGo ps (cur ++ p ++ sep2) acc := by
  show (if cur.length + p.length + 2 < MAX_EMBED_LENGTH then _ else _) = _
  rw [if_pos h]

theorem chunkGo_cons_ge_ne {p cur : Str} {ps acc : List Str}
    (h : ¬(cur.length + p.length + 2 < MAX_EMBED_LENGTH)) (hne : cur.isEmpty = false) :
    chunkGo (p :: ps) cur acc = chunkGo ps (p ++ sep2) (acc ++ [pyStrip cur]) := by
  show (if cur.length + p.length + 2 < MAX_EMBED_LENGTH then _
    else if cur.isEmpty then _ else _) = _
  rw [if_neg h, if_neg (by simp [hne])]

theorem chunkGo_cons_ge_emp {p cur : Str} {ps acc : List Str}
    (h : ¬(cur.length + p.length + 2 < MAX_EMBED_LENGTH)) (hemp : cur.isEmpty = true) :
    chunkGo (p :: ps) cur acc = chunkGo ps (p ++ sep2) acc := by
  show (if cur.length + p.length + 2 < MAX_EMBED_LENGTH then _
    else if cur.isEmpty then _ else _) = _
  rw [if_neg h, if_pos hemp]

/-- The loop invariant of the chunker: the paragraph sequences of the
finished chunks, of the running chunk and of the pending paragraphs
concatenate to a constant. -/
theorem chunkGo_paras : ∀ (ps cs acc : List Str),
    (∀ p ∈ ps, cleanPara p) → (∀ q ∈ cs, cleanPara q) →
    chunksParas (chunkGo ps (joinT cs) acc) = chunksParas acc ++ cs ++ ps := by
  intro ps
  induction ps with
  | nil =>
    intro cs acc _ hcs
    cases cs with
    | nil =>
      rw [chunkGo_nil_emp (by rfl)]
      simp
    | cons q cs' =>
      rw [chunkGo_nil_ne (by
        show (joinSep (q :: cs') ++ sep2).isEmpty = false
        have : joinSep (q :: cs') ++ sep2 ≠ [] := by simp [sep2]
        simpa [List.isEmpty_iff] using this)]
      show chunksParas (acc ++ [pyStrip (joinSep (q :: cs') ++ sep2)]) = _
      rw [pyStrip_joinSep (by simp) hcs, chunksParas_append, chunksParas_single,
        pySplitOn_joinSep (by simp) hcs]
      simp
  | cons p ps' ih =>
    intro cs acc hps hcs
    have hp : cleanPara p := hps p (by simp)
    have hps' : ∀ x ∈ ps', cleanPara x := fun x hx => hps x (List.mem_cons_of_mem _ hx)
    by_cases hcond : (joinT cs).length + p.length + 2 < MAX_EMBED_LENGTH
    · rw [chunkGo_cons_lt hcond, joinT_snoc]
      rw [ih (cs ++ [p]) acc hps' (by
        intro x hx
        rcases List.mem_append.mp hx with hx | hx
        · exact hcs x hx
        · rw [List.mem_singleton.mp hx]; exact hp)]
      simp [List.append_assoc]
    · by_cases hemp : (joinT cs).isEmpty = true
      · rw [chunkGo_cons_ge_emp hcond hemp]
        have hcs0 : cs = [] := joinT_isEmpty hemp
        subst hcs0
        have hpt : (p ++ sep2 : Str) = joinT [p] := rfl
        rw [hpt, ih [p] acc hps' (by
          intro x hx
          rw [List.mem_singleton.mp hx]; exact hp)]
        simp
      · rw [chunkGo_cons_ge_ne hcond (by simpa using hemp)]
        have hcs_ne : cs ≠ [] := by
          intro h0
          subst h0
          exact hemp rfl
        have hpt : (p ++ sep2 : Str) = joinT [p] := rfl
        rw [hpt, ih [p] (acc ++ [pyStrip (joinT cs)]) hps' (by
          intro x hx
          rw [List.mem_singleton.mp hx]; exact hp)]
        obtain ⟨q0, cs', rfl⟩ : ∃ q0 cs', cs = q0 :: cs' := by
          cases cs with
          | nil => exact absurd rfl hcs_ne
          | cons a b => exact ⟨a, b, rfl⟩
        show chunksParas (acc ++ [pyStrip (joinSep (q0 :: cs') ++ sep2)]) ++ [p] ++ ps' = _
        rw [pyStrip_joinSep (by simp) hcs, chunksParas_append, chunksParas_single,
          pySplitOn_joinSep (by simp) hcs]
        simp [List.append_assoc]

theorem occursB_sep2_replicate_b (n : Nat) :
    occursB sep2 (List.replicate n 'b') = false := by
  rw [Bool.eq_false_iff]
  intro h
  have hinf := occursB_infix_iff.mp h
  have hmem : '\n' ∈ List.replicate n 'b' := hinf.sublist.subset (by simp [sep2])
  have := List.eq_of_mem_replicate hmem
  exact absurd this (by decide)

theorem pyStrip_replicate_b (n : Nat) :
    pyStrip (List.replicate n 'b') = List.replicate n 'b' := by
  have hb : ∀ c, (List.replicate n 'b').head? = some c → pyWs c = false := by
    intro c hc
    have hm : c ∈ List.replicate n 'b' := List.mem_of_mem_head? hc
    rw [List.eq_of_mem_replicate hm]
    rfl
  unfold pyStrip
  rw [dropWhile_eq_self_of_head hb, List.reverse_replicate,
    dropWhile_eq_self_of_head hb, List.reverse_replicate]

theorem cleanPara_replicate_b {n : Nat} (h : n ≠ 0) :
    cleanPara (List.replicate n 'b') :=
  ⟨fun he => h (by simpa using congrArg List.length he),
    pyStrip_replicate_b n, occursB_sep2_replicate_b n⟩

/-- The 4000-character paragraph of the counterexample. -/
def bigPara : Str := List.replicate 4000 'b'

/-- C5's counterexample input: a paragraph with a leading space,
then an oversized paragraph. -/
def exC5 : Str := " a".toList ++ sep2 ++ bigPara

/-- C5 counterexample: the chunker strips chunk edges, so the chunked
output loses the leading space of the first paragraph and the
concatenated paragraph sequence differs from the input's. -/
theorem C5_strip_cex :
    MAX_EMBED_LENGTH < exC5.length ∧
    pySplitOn sep2 exC5 = [" a".toList, bigPara] ∧
    buildChunks exC5 = ["a".toList, bigPara] ∧
    chunksParas (buildChunks exC5) ≠ pySplitOn sep2 exC5 := by
  have hbig : bigPara.length = 4000 := List.length_replicate _ _
  have hsplit : pySplitOn sep2 exC5 = [" a".toList, bigPara] := by
    show pySplitOn sep2 (" a".toList ++ sep2 ++ bigPara) = _
    rw [pySplitOn_sep2_append " a".toList bigPara (by decide) (by decide),
      pySplitOn_no_occurrence sep2 bigPara (occursB_sep2_replicate_b 4000)]
  have hstrip1 : pyStrip ([] ++ " a".toList ++ sep2) = "a".toList := by decide
  have hstrip2 : pyStrip (bigPara ++ sep2) = bigPara := by
    have := @pyStrip_joinSep [bigPara] (by simp)
      (by intro q hq; rw [List.mem_singleton.mp hq]; exact cleanPara_replicate_b (by decide))
    exact this
  have hchunks : buildChunks exC5 = ["a".toList, bigPara] := by
    unfold buildChunks
    rw [hsplit]
    rw [chunkGo_cons_lt (by decide)]
    rw [chunkGo_cons_ge_ne (by
        simp only [List.length_append, List.nil_append, hbig]
        decide) (by decide)]
    rw [chunkGo_nil_ne (by
      rw [List.isEmpty_eq_false_iff_exists_mem]
      exact ⟨'b', List.mem_append.mpr (Or.inl (List.mem_replicate.mpr ⟨by decide, rfl⟩))⟩)]
    rw [hstrip1, hstrip2]
    rfl
  refine ⟨?_, hsplit, hchunks, ?_⟩
  · show MAX_EMBED_LENGTH < (" a".toList ++ sep2 ++ bigPara).length
    simp only [List.length_append, hbig]
    decide
  · rw [hchunks, hsplit]
    intro h
    have : chunksParas ["a".toList, bigPara] = ["a".toList, bigPara] := by
      unfold chunksParas
      simp only [List.map_cons, List.map_nil, List.flatten_cons, List.flatten_nil]
      rw [pySplitOn_no_occurrence sep2 ("a".toList) (by decide),
        pySplitOn_no_occurrence sep2 bigPara (occursB_sep2_replicate_b 4000)]
      rfl
    rw [this] at h
    have hhead := congrArg List.head? h
    simp at hhead
  
/-- C5 amended: for input over the size limit whose paragraphs are all
nonempty and strip-invariant, the concatenation of the chunks'
paragraph sequences reproduces the input's paragraph sequence (chunk
boundaries only at paragraph breaks). -/
theorem C5_roundtrip_clean :
    ∀ s : Str, MAX_EMBED_LENGTH < s.length →
      (∀ p ∈ pySplitOn sep2 s, p ≠ [] ∧ pyStrip p = p) →
      chunksParas (buildChunks s) = pySplitOn sep2 s := by
  intro s _ hclean
  have hfree := @mem_pySplitOn_sep_free sep2 (by simp [sep2]) s.length s le_rfl
  have hcl : ∀ p ∈ pySplitOn sep2 s, cleanPara p := fun p hp =>
    ⟨(hclean p hp).1, (hclean p hp).2, hfree p hp⟩
  have h := chunkGo_paras (pySplitOn sep2 s) [] [] hcl (by simp)
  simpa [buildChunks, joinT, chunksParas] using h

/-- The clean 5002-character input of C5's witness. -/
def wC5 : Str := List.replicate 2500 'b' ++ sep2 ++ List.replicate 2500 'b'

/-- Witness for C5's amended theorem on a clean over-long input. -/
theorem C5_roundtrip_clean_witness :
    chunksParas (buildChunks wC5) = pySplitOn sep2 wC5 := by
  have hsplit : pySplitOn sep2 wC5 = [List.replicate 2500 'b', List.replicate 2500 'b'] := by
    show pySplitOn sep2 (List.replicate 2500 'b' ++ sep2 ++ List.replicate 2500 'b') = _
    rw [pySplitOn_sep2_append _ _ (occursB_sep2_replicate_b 2500)
        (cleanPara_last_ne_nl (cleanPara_replicate_b (by decide))),
      pySplitOn_no_occurrence sep2 _ (occursB_sep2_replicate_b 2500)]
  exact C5_roundtrip_clean wC5
    (by
      show MAX_EMBED_LENGTH < (List.replicate 2500 'b' ++ sep2 ++ List.replicate 2500 'b').length
      simp only [List.length_append, List.length_replicate]
      decide)
    (by
      rw [hsplit]
      intro p hp
      have : p = List.replicate 2500 'b' := by
        rcases List.mem_cons.mp hp with h | h
        · exact h
        · exact List.mem_singleton.mp h
      rw [this]
      exact ⟨(cleanPara_replicate_b (by decide)).1, pyStrip_replicate_b 2500⟩)

/-- The accumulation loop as the claim words it, modelled for
comparison with `chunkGo`: a paragraph is appended exactly when doing
so keeps the running chunk at or under the size limit (`≤` where the
code uses `<`). -/
def chunkGoLe : List Str → Str → List Str → List Str
  | [], cur, acc => if cur.isEmpty then acc else acc ++ [pyStrip cur]
  | p :: ps, cur, acc =>
    if cur.length + p.length + 2 ≤ MAX_EMBED_LENGTH then
      chunkGoLe ps (cur ++ p ++ sep2) acc
    else if cur.isEmpty then
      chunkGoLe ps (p ++ sep2) acc
    else
      chunkGoLe ps (p ++ sep2) (acc ++ [pyStrip cur])

/-- The claim's chunker over a whole summary. -/
def buildChunksLe (summary : Str) : List Str :=
  chunkGoLe (pySplitOn sep2 summary) [] []

theorem chunkGoLe_nil_ne {cur : Str} {acc : List Str} (h : cur.isEmpty = false) :
    chunkGoLe [] cur acc = acc ++ [pyStrip cur] := by
  show (if cur.isEmpty then acc else acc ++ [pyStrip cur]) = _
  rw [if_neg (by simp [h])]

theorem chunkGoLe_cons_le {p cur : Str} {ps acc : List Str}
    (h : cur.length + p.length + 2 ≤ MAX_EMBED_LENGTH) :
    chunkGoLe (p :: ps) cur acc = chunkGoLe ps (cur ++ p ++ sep2) acc := by
  show (if cur.length + p.length + 2 ≤ MAX_EMBED_LENGTH then _ else _) = _
  rw [if_pos h]

theorem chunkGoLe_cons_gt_ne {p cur : Str} {ps acc : List Str}
    (h : ¬(cur.length + p.length + 2 ≤ MAX_EMBED_LENGTH)) (hne : cur.isEmpty = false) :
    chunkGoLe (p :: ps) cur acc = chunkGoLe ps (p ++ sep2) (acc ++ [pyStrip cur]) := by
  show (if cur.length + p.length + 2 ≤ MAX_EMBED_LENGTH then _
    else if cur.isEmpty then _ else _) = _
  rw [if_neg h, if_neg (by simp [hne])]

/-- The middle paragraph of C6's counterexample: its addition lands
the running chunk exactly on the size limit. -/
def midPara : Str := List.replicate 3995 'b'

/-- C6 counterexample input: three clean paragraphs totalling 4001
characters, with an exact-boundary addition at the second one. -/
def exC6 : Str := "a".toList ++ sep2 ++ (midPara ++ sep2 ++ "c".toList)

theorem C6_boundary_cex :
    MAX_EMBED_LENGTH < exC6.length ∧
    ("a".toList ++ sep2 : Str).length + midPara.length + 2 = MAX_EMBED_LENGTH ∧
    buildChunks exC6 = ["a".toList, midPara, "c".toList] ∧
    buildChunksLe exC6 = [("a".toList ++ sep2) ++ midPara, "c".toList] ∧
    buildChunks exC6 ≠ buildChunksLe exC6 := by
  have hmid : midPara.length = 3995 := List.length_replicate _ _
  have hcleanMid : cleanPara midPara := cleanPara_replicate_b (by decide)
  have hsplit : pySplitOn sep2 exC6 = ["a".toList, midPara, "c".toList] := by
    show pySplitOn sep2 ("a".toList ++ sep2 ++ (midPara ++ sep2 ++ "c".toList)) = _
    rw [pySplitOn_sep2_append "a".toList _ (by decide) (by decide),
      pySplitOn_sep2_append midPara _ hcleanMid.2.2 (cleanPara_last_ne_nl hcleanMid),
      pySplitOn_no_occurrence sep2 ("c".toList) (by decide)]
  have hs1 : pyStrip (("a".toList : Str) ++ sep2) = "a".toList := by decide
  have hs2 : pyStrip (midPara ++ sep2) = midPara :=
    @pyStrip_joinSep [midPara] (by simp)
      (by intro q hq; rw [List.mem_singleton.mp hq]; exact hcleanMid)
  have hs3 : pyStrip (("c".toList : Str) ++ sep2) = "c".toList := by decide
  have hsJoin : pyStrip ((("a".toList ++ sep2) ++ midPara) ++ sep2) =
      ("a".toList ++ sep2) ++ midPara := by
    have e : joinSep ["a".toList, midPara] = ("a".toList ++ sep2) ++ midPara := rfl
    rw [← e]
    exact pyStrip_joinSep (by simp) (by
      intro q hq
      rcases List.mem_cons.mp hq with rfl | hq
      · exact (by decide : cleanPara ("a".toList))
      · rw [List.mem_singleton.mp hq]
        exact hcleanMid)
  have hneSep : ∀ x : Str, (x ++ sep2).isEmpty = false := by
    intro x
    rw [List.isEmpty_eq_false_iff_exists_mem]
    exact ⟨'\n', List.mem_append.mpr (Or.inr (by decide))⟩
  have hchunks : buildChunks exC6 = ["a".toList, midPara, "c".toList] := by
    unfold buildChunks
    rw [hsplit, chunkGo_cons_lt (by decide)]
    simp only [List.nil_append]
    rw [chunkGo_cons_ge_ne (by
        simp only [List.length_append, hmid]
        decide) (hneSep _)]
    rw [chunkGo_cons_ge_ne (by
        simp only [List.length_append, hmid]
        decide) (hneSep _)]
    rw [chunkGo_nil_ne (hneSep _), hs1, hs2, hs3]
    rfl
  have hchunksLe : buildChunksLe exC6 = [("a".toList ++ sep2) ++ midPara, "c".toList] := by
    unfold buildChunksLe
    rw [hsplit, chunkGoLe_cons_le (by decide)]
    simp only [List.nil_append]
    rw [chunkGoLe_cons_le (by
        simp only [List.length_append, hmid]
        decide)]
    rw [chunkGoLe_cons_gt_ne (by
        simp only [List.length_append, hmid]
        decide) (hneSep _)]
    rw [chunkGoLe_nil_ne (hneSep _), hsJoin, hs3]
    rfl
  refine ⟨?_, ?_, hchunks, hchunksLe, ?_⟩
  · show MAX_EMBED_LENGTH < ("a".toList ++ sep2 ++ (midPara ++ sep2 ++ "c".toList)).length
    simp only [List.length_append, hmid]
    decide
  · simp only [List.length_append, hmid]
    decide
  · rw [hchunks, hchunksLe]
    intro h
    have := congrArg List.length h
    simp at this

/-- C6 amended: with the code's strict comparison, two clean
paragraphs whose accumulated length lands exactly on
`MAX_EMBED_LENGTH` are split into two chunks, while staying strictly
under the limit keeps them in one chunk. -/
theorem C6_strict_boundary :
    ∀ p1 p2 : Str, cleanPara p1 → cleanPara p2 →
      (p1.length + 2 + p2.length + 2 = MAX_EMBED_LENGTH →
        buildChunks (p1 ++ sep2 ++ p2) = [p1, p2]) ∧
      (p1.length + 2 + p2.length + 2 < MAX_EMBED_LENGTH →
        buildChunks (p1 ++ sep2 ++ p2) = [p1 ++ sep2 ++ p2]) := by
  intro p1 p2 h1 h2
  have hp2len : 1 ≤ p2.length := by
    cases hp : p2 with
    | nil => exact absurd hp h2.1
    | cons a t => simp
  have hsplit : pySplitOn sep2 (p1 ++ sep2 ++ p2) = [p1, p2] := by
    rw [pySplitOn_sep2_append p1 p2 h1.2.2 (cleanPara_last_ne_nl h1),
      pySplitOn_no_occurrence sep2 p2 h2.2.2]
  have hneSep : ∀ x : Str, (x ++ sep2).isEmpty = false := by
    intro x
    rw [List.isEmpty_eq_false_iff_exists_mem]
    exact ⟨'\n', List.mem_append.mpr (Or.inr (by decide))⟩
  have hsep2len : (sep2 : Str).length = 2 := rfl
  have hs1 : pyStrip (p1 ++ sep2) = p1 :=
    @pyStrip_joinSep [p1] (by simp)
      (by intro q hq; rw [List.mem_singleton.mp hq]; exact h1)
  have hs2 : pyStrip (p2 ++ sep2) = p2 :=
    @pyStrip_joinSep [p2] (by simp)
      (by intro q hq; rw [List.mem_singleton.mp hq]; exact h2)
  have hs12 : pyStrip (((p1 ++ sep2) ++ p2) ++ sep2) = (p1 ++ sep2) ++ p2 := by
    have e : joinSep [p1, p2] = (p1 ++ sep2) ++ p2 := rfl
    rw [← e]
    exact pyStrip_joinSep (by simp) (by
      intro q hq
      rcases List.mem_cons.mp hq with rfl | hq
      · exact h1
      · rw [List.mem_singleton.mp hq]
        exact h2)
  constructor
  · intro hsum
    unfold buildChunks
    rw [hsplit, chunkGo_cons_lt (by
        simp only [List.length_nil, MAX_EMBED_LENGTH] at hsum ⊢
        omega)]
    simp only [List.nil_append]
    rw [chunkGo_cons_ge_ne (by
        simp only [List.length_append, hsep2len, MAX_EMBED_LENGTH] at hsum ⊢
        omega) (hneSep _)]
    rw [chunkGo_nil_ne (hneSep _), hs1, hs2]
    rfl
  · intro hsum
    unfold buildChunks
    rw [hsplit, chunkGo_cons_lt (by
        simp only [List.length_nil, MAX_EMBED_LENGTH] at hsum ⊢
        omega)]
    simp only [List.nil_append]
    rw [chunkGo_cons_lt (by
        simp only [List.length_append, hsep2len, MAX_EMBED_LENGTH] at hsum ⊢
        omega)]
    rw [chunkGo_nil_ne (hneSep _), hs12]
    rfl

/-- Witness for C6's amended theorem at the exact boundary. -/
theorem C6_strict_boundary_witness :
    buildChunks ("a".toList ++ sep2 ++ List.replicate 3995 'b') =
      ["a".toList, List.replicate 3995 'b'] :=
  (C6_strict_boundary "a".toList (List.replicate 3995 'b') (by decide)
    (cleanPara_replicate_b (by decide))).1
    (by simp only [List.length_replicate]; decide)

-- ======================================================================
-- C7: metadata placement on multi-chunk responses
-- ======================================================================

theorem digitChar_isDigit {d : Nat} (h : d < 10) : (digitChar d).isDigit = true := by
  interval_cases d <;> decide

theorem natReprAux_digits : ∀ (fuel n : Nat) (acc : Str), n ≤ fuel →
    (∀ c ∈ acc, c.isDigit = true) → ∀ c ∈ natReprAux fuel n acc, c.isDigit = true := by
  intro fuel
  induction fuel with
  | zero =>
    intro n acc hn hacc c hc
    have : n = 0 := by omega
    subst this
    rcases List.mem_cons.mp hc with rfl | hc
    · exact digitChar_isDigit (by omega)
    · exact hacc c hc
  | succ f ih =>
    intro n acc hn hacc c hc
    by_cases h10 : n < 10
    · have : natReprAux (f + 1) n acc = digitChar n :: acc := by
        show (if n < 10 then digitChar n :: acc else _) = _
        rw [if_pos h10]
      rw [this] at hc
      rcases List.mem_cons.mp hc with rfl | hc
      · exact digitChar_isDigit h10
      · exact hacc c hc
    · have : natReprAux (f + 1) n acc =
          natReprAux f (n / 10) (digitChar (n % 10) :: acc) := by
        show (if n < 10 then digitChar n :: acc else _) = _
        rw [if_neg h10]
      rw [this] at hc
      have hdiv : n / 10 ≤ f := by
        have := Nat.div_lt_self (show 0 < n by omega) (show 1 < 10 by omega)
        omega
      refine ih (n / 10) _ hdiv ?_ c hc
      intro x hx
      rcases List.mem_cons.mp hx with rfl | hx
      · exact digitChar_isDigit (Nat.mod_lt _ (by omega))
      · exact hacc x hx

theorem natRepr_digits (n : Nat) : ∀ c ∈ natRepr n, c.isDigit = true :=
  natReprAux_digits n n [] le_rfl (by simp)

/-- The marker text that appears in a footer exactly when the
message-count suffix was attached. -/
def countMark : Str := " messages • ".toList

theorem no_m_no_mark {s : Str} (h : ∀ c ∈ s, c ≠ 'm') : occursB countMark s = false := by
  rw [Bool.eq_false_iff]
  intro hc
  have hinf := occursB_infix_iff.mp hc
  have hm : 'm' ∈ s := hinf.sublist.subset (by decide)
  exact h 'm' hm rfl

theorem natRepr_no_m (n : Nat) : ∀ c ∈ natRepr n, c ≠ 'm' := by
  intro c hc he
  subst he
  exact absurd (natRepr_digits n 'm' hc) (by decide)

theorem partFooter_no_m (k n : Nat) : ∀ c ∈ partFooter k n, c ≠ 'm' := by
  intro c hc
  unfold partFooter at hc
  rcases List.mem_append.mp hc with hc | hc
  · rcases List.mem_append.mp hc with hc | hc
    · rcases List.mem_append.mp hc with hc | hc
      · intro he
        subst he
        revert hc
        decide
      · exact natRepr_no_m k c hc
    · intro he
      subst he
      revert hc
      decide
  · exact natRepr_no_m n c hc

theorem firstFooter_no_m (n : Nat) : ∀ c ∈ ("Part 1/".toList ++ natRepr n), c ≠ 'm' := by
  intro c hc
  rcases List.mem_append.mp hc with hc | hc
  · intro he
    subst he
    revert hc
    decide
  · exact natRepr_no_m n c hc

theorem countFooter_has_mark (k n m : Nat) (lbl : Str) :
    occursB countMark (partFooter k n ++ countFooterSuffix m lbl) = true := by
  rw [occursB_infix_iff]
  refine ⟨partFooter k n ++ " • ".toList ++ natRepr m, lbl, ?_⟩
  unfold countFooterSuffix countMark
  simp [List.append_assoc]

theorem contEmbeds_map_description (title lbl : Str) (n m : Nat) :
    ∀ (cs : List Str) (k : Nat), (contEmbeds title lbl n m k cs).map Embed.description = cs := by
  intro cs
  induction cs with
  | nil => intro k; rfl
  | cons c cs' ih =>
    intro k
    show (⟨_, c, _, _⟩ : Embed).description :: (contEmbeds title lbl n m (k + 1) cs').map Embed.description = c :: cs'
    rw [ih (k + 1)]

theorem contEmbeds_map_pred (title lbl : Str) (n m : Nat) (F : Embed → Bool)
    (hF : ∀ (t d f : Str), F ⟨t, d, [], f⟩ = false) :
    ∀ (cs : List Str) (k : Nat),
      (contEmbeds title lbl n m k cs).map F = List.replicate cs.length false := by
  intro cs
  induction cs with
  | nil => intro k; rfl
  | cons c cs' ih =>
    intro k
    show F ⟨_, c, [], _⟩ :: (contEmbeds title lbl n m (k + 1) cs').map F = _
    rw [hF, ih (k + 1), List.length_cons, List.replicate_succ]

theorem contEmbeds_map_footerMark (title lbl : Str) (n m : Nat) :
    ∀ (cs : List Str) (k : Nat), cs ≠ [] → k + cs.length = n + 1 →
      (contEmbeds title lbl n m k cs).map (fun e => occursB countMark e.footer) =
        List.replicate (cs.length - 1) false ++ [true] := by
  intro cs
  induction cs with
  | nil => intro k h; exact absurd rfl h
  | cons c cs' ih =>
    intro k _ hk
    cases cs' with
    | nil =>
      have hkn : k = n := by simpa using hk
      subst hkn
      show occursB countMark (partFooter k k ++ (if k == k then countFooterSuffix m lbl else [])) :: [] = _
      rw [if_pos (by simp), countFooter_has_mark]
      rfl
    | cons c' cs'' =>
      have hkn : k ≠ n := by
        simp only [List.length_cons] at hk
        omega
      show occursB countMark (partFooter k n ++ (if k == n then countFooterSuffix m lbl else [])) ::
        (contEmbeds title lbl n m (k + 1) (c' :: cs'')).map (fun e => occursB countMark e.footer) = _
      rw [if_neg (by simp [hkn]), List.append_nil,
        no_m_no_mark (partFooter_no_m k n),
        ih (k + 1) (by simp) (by simp only [List.length_cons] at hk ⊢; omega)]
      simp only [List.length_cons, Nat.add_sub_cancel]
      rw [List.replicate_succ]
      rfl

/-- C7 counterexample input: a 4003-character summary producing two
chunks. -/
def exC7 : Str := "a".toList ++ sep2 ++ bigPara

/-- C7 counterexample: a delivered two-chunk response with a non-null
message limit carries no field annotations at all — the multi-chunk
path never attaches the "Message Limit" annotation. -/
theorem C7_missing_limit_annotation_cex :
    ((deliverEmbeds ("T".toList) ("S".toList) ("Summary".toList) none (some 100) exC7 7).map
      Embed.fields) = [[], []] ∧
    (deliverEmbeds ("T".toList) ("S".toList) ("Summary".toList) none (some 100) exC7 7).length = 2 ∧
    (some 100 : Option Nat) ≠ none := by
  have hbig : bigPara.length = 4000 := List.length_replicate _ _
  have hchunks : buildChunks exC7 = ["a".toList, bigPara] := by
    unfold buildChunks
    show chunkGo (pySplitOn sep2 ("a".toList ++ sep2 ++ bigPara)) [] [] = _
    rw [pySplitOn_sep2_append "a".toList bigPara (by decide) (by decide),
      pySplitOn_no_occurrence sep2 bigPara (occursB_sep2_replicate_b 4000)]
    rw [chunkGo_cons_lt (by decide)]
    simp only [List.nil_append]
    rw [chunkGo_cons_ge_ne (by
        simp only [List.length_append, hbig]
        decide) (by
        rw [List.isEmpty_eq_false_iff_exists_mem]
        exact ⟨'a', by decide⟩)]
    rw [chunkGo_nil_ne (by
        rw [List.isEmpty_eq_false_iff_exists_mem]
        exact ⟨'b', List.mem_append.mpr (Or.inl (List.mem_replicate.mpr ⟨by decide, rfl⟩))⟩)]
    rw [(by decide : pyStrip (("a".toList : Str) ++ sep2) = "a".toList)]
    have hs2 : pyStrip (bigPara ++ sep2) = bigPara :=
      @pyStrip_joinSep [bigPara] (by simp)
        (by intro q hq; rw [List.mem_singleton.mp hq]; exact cleanPara_replicate_b (by decide))
    rw [hs2]
    rfl
  have hlen : ¬ (exC7.length ≤ MAX_EMBED_LENGTH) := by
    show ¬ (("a".toList ++ sep2 ++ bigPara).length ≤ MAX_EMBED_LENGTH)
    simp only [List.length_append, hbig]
    decide
  have hdel : deliverEmbeds ("T".toList) ("S".toList) ("Summary".toList) none (some 100) exC7 7 =
      renderMulti ("T".toList) ("Summary".toList) none (buildChunks exC7) 7 := by
    unfold deliverEmbeds
    rw [if_neg hlen]
  rw [hdel, hchunks]
  refine ⟨rfl, rfl, by decide⟩

/-- C7 amended: in a multi-chunk response, chunk 1 carries the title,
the chunk bodies in order, and the Time Range annotation exactly when
`hours` is truthy; no chunk ever carries a "Message Limit" annotation;
and the message-count footer suffix appears on the final chunk and
only there. -/
theorem C7_multichunk_metadata :
    ∀ (title lbl : Str) (hours : Option Nat) (c0 : Str) (rest : List Str) (m : Nat),
      rest ≠ [] →
      (renderMulti title lbl hours (c0 :: rest) m).map Embed.description = c0 :: rest ∧
      (renderMulti title lbl hours (c0 :: rest) m).head? = some
        ⟨title, c0, (if pyTruthy hours then [timeRangeField (hours.getD 0)] else []),
          "Part 1/".toList ++ natRepr (rest.length + 1)⟩ ∧
      ((renderMulti title lbl hours (c0 :: rest) m).map
        (fun e => e.fields.any (fun f => f.fst == ("Message Limit".toList)))) =
        List.replicate (rest.length + 1) false ∧
      ((renderMulti title lbl hours (c0 :: rest) m).map
        (fun e => occursB countMark e.footer)) =
        List.replicate rest.length false ++ [true] := by
  intro title lbl hours c0 rest m hne
  have hrest1 : 1 ≤ rest.length := by
    cases hr : rest with
    | nil => exact absurd hr hne
    | cons a t => simp
  refine ⟨?_, rfl, ?_, ?_⟩
  · show c0 :: (contEmbeds title lbl (rest.length + 1) m 2 rest).map Embed.description = c0 :: rest
    rw [contEmbeds_map_description]
  · show ((if pyTruthy hours then [timeRangeField (hours.getD 0)] else []).any
        (fun f => f.fst == ("Message Limit".toList))) ::
      (contEmbeds title lbl (rest.length + 1) m 2 rest).map
        (fun e => e.fields.any (fun f => f.fst == ("Message Limit".toList))) = _
    rw [contEmbeds_map_pred _ _ _ _ _ (fun t d f => rfl)]
    have hfirst : ((if pyTruthy hours then [timeRangeField (hours.getD 0)] else []).any
        (fun f => f.fst == ("Message Limit".toList))) = false := by
      split
      · rw [List.any_cons, List.any_nil]
        show ((("Time Range".toList : Str) == ("Message Limit".toList)) || false) = false
        decide
      · rfl
    rw [hfirst, List.replicate_succ]
  · show occursB countMark ("Part 1/".toList ++ natRepr (rest.length + 1)) ::
      (contEmbeds title lbl (rest.length + 1) m 2 rest).map
        (fun e => occursB countMark e.footer) = _
    rw [no_m_no_mark (firstFooter_no_m (rest.length + 1)),
      contEmbeds_map_footerMark title lbl (rest.length + 1) m rest 2 hne (by omega)]
    rw [show rest.length = (rest.length - 1) + 1 by omega, List.replicate_succ]
    simp

/-- Witness for C7's amended theorem on a concrete two-chunk
response. -/
theorem C7_multichunk_metadata_witness :
    ((renderMulti ("T".toList) ("Summary".toList) (some 2) ["x".toList, "y".toList] 7).map
      (fun e => occursB countMark e.footer)) = [false, true] := by
  have := (C7_multichunk_metadata ("T".toList) ("Summary".toList) (some 2) ("x".toList)
    ["y".toList] 7 (by simp)).2.2.2
  simpa using this
